import Mathlib

set_option maxRecDepth 10000

/-!
Verification development for the ssdeep fuzzy-hash comparison engine
(`score.go`).  Go strings are modelled as lists of bytes (`List Nat`),
Go `int` as `ℤ` (no overflow: all quantities in the claims stay far
below 2^63), and Go `float64` as exact dyadic rationals with IEEE-754
round-to-nearest-even, implemented over integers (`F64` below).

The file first embeds the source functions (`splitSsdeep`,
`hasCommonSubstring`, `scoreDistance`, `Distance`), then states and
proves the claims.  Components of the repository that are not part of
`score.go` (the constants, the rolling-hash state and the edit
distance) are modelled from the specification; their doc comments say
so explicitly.
-/

/-- Helper turning an ASCII string literal into its byte list. -/
def ascii (s : String) : List Nat := s.toList.map Char.toNat

/-- Modelled from the spec: the window length W, the fixed
compatibility constant of the established ssdeep format (7). -/
def rollingWindow : Nat := 7

/-- Modelled from the spec: L, the fixed maximum signature-segment
length constant of the format (64). -/
def spamSumLength : Nat := 64

/-- Modelled from the spec: U, the minimal block-size granularity
constant of the format (3). -/
def blockMin : Nat := 3

/-- Modelled from the spec: the fixed small-block threshold of the
established format, `(99 + W) / W * U = 45`. -/
def blockSizeSmallLimit : Int := 45

/-! ### An exact model of the `float64` operations used by `scoreDistance`

A (finite, non-extreme) IEEE-754 double is a dyadic rational
`m * 2 ^ e` with `|m| < 2 ^ 53`.  Every operation rounds its exact
result to nearest, ties to even.  All inputs in `scoreDistance` are
far from overflow and underflow, so exponent clamping never fires and
is not modelled. -/

/-- Fuelled bit length: `blenAux fuel n` halves `n` until it is zero.
With `fuel ≥ n` it computes `⌊log₂ n⌋ + 1` (and `0` for `n = 0`). -/
def blenAux : Nat → Nat → Nat
  | 0, _ => 0
  | fuel + 1, n => if n = 0 then 0 else blenAux fuel (n / 2) + 1

/-- Bit length of a natural number. -/
def blen (n : Nat) : Nat := blenAux n n

/-- Round the fraction `p / q` to the nearest integer, ties to even. -/
def roundNE (p q : Nat) : Nat :=
  let f := p / q
  let r := p % q
  if 2 * r < q then f else if q < 2 * r then f + 1 else if f % 2 = 0 then f else f + 1

/-- Decide `a / b < 2 ^ d` for naturals `a, b` and an integer `d`. -/
def ltPow2 (a b : Nat) (d : Int) : Bool :=
  if 0 ≤ d then a < b * 2 ^ d.toNat else a * 2 ^ (-d).toNat < b

/-- For positive `a, b`, the integer `e` with `2 ^ e ≤ a / b < 2 ^ (e + 1)`.
The bit lengths localise the value to two candidates and one comparison
settles it. -/
def ilog2Frac (a b : Nat) : Int :=
  let d : Int := (blen a : Int) - (blen b : Int)
  if ltPow2 a b d then d - 1 else d

/-- Round the positive fraction `a / b` to 53 significant bits:
returns `(m, e)` with `m * 2 ^ e` the nearest double and
`2 ^ 52 ≤ m < 2 ^ 53` (a mantissa that rounds up to `2 ^ 53` moves to
the next binade, preserving the value exactly). -/
def roundFracPos (a b : Nat) : Nat × Int :=
  let e := ilog2Frac a b
  let u : Int := 52 - e
  let m := if 0 ≤ u then roundNE (a * 2 ^ u.toNat) b else roundNE a (b * 2 ^ (-u).toNat)
  if m = 2 ^ 53 then (2 ^ 52, e - 51) else (m, e - 52)

/-- A double: the dyadic rational `m * 2 ^ e`. -/
structure F64 where
  m : Int
  e : Int
deriving DecidableEq

/-- The double nearest to `± a / b` (`neg` gives the sign). -/
def dyadic (neg : Bool) (a b : Nat) : F64 :=
  if a = 0 then ⟨0, 0⟩
  else
    let p := roundFracPos a b
    ⟨if neg then -(p.1 : Int) else (p.1 : Int), p.2⟩

/-- Go `float64(n)` for an integer `n`. -/
def f64ofInt (n : Int) : F64 := dyadic (decide (n < 0)) n.natAbs 1

/-- Go `x / y` on doubles: the exact quotient, rounded.  Rounding
commutes with scaling by powers of two, so rounding the mantissa
quotient is exact IEEE division. -/
def f64div (x y : F64) : F64 :=
  let z := dyadic (xor (decide (x.m < 0)) (decide (y.m < 0))) x.m.natAbs y.m.natAbs
  ⟨z.m, z.e + (x.e - y.e)⟩

/-- Go `x * y` on doubles: the exact product, rounded. -/
def f64mul (x y : F64) : F64 :=
  let z := dyadic (xor (decide (x.m < 0)) (decide (y.m < 0))) (x.m.natAbs * y.m.natAbs) 1
  ⟨z.m, z.e + (x.e + y.e)⟩

/-- Value comparison of two doubles, by shifting to a common exponent. -/
def f64le (x y : F64) : Bool :=
  let s := min x.e y.e
  decide (x.m * 2 ^ (x.e - s).toNat ≤ y.m * 2 ^ (y.e - s).toNat)

/-- Go `math.Min` on (finite) doubles. -/
def f64min (x y : F64) : F64 := if f64le x y then x else y

/-- Go `int(x)`: truncation toward zero. -/
def f64trunc (x : F64) : Int :=
  if 0 ≤ x.e then x.m * 2 ^ x.e.toNat else Int.tdiv x.m (2 ^ (-x.e).toNat)

/-! ### Edit distance -/

/-- Modelled from the spec: `distance` (spec 4.4), the standard
Levenshtein distance, is part of the repository but not of `score.go`. -/
def distance : List Nat → List Nat → Nat
  | [], ys => ys.length
  | x :: xs, [] => (x :: xs).length
  | x :: xs, y :: ys =>
    if x = y then distance xs ys
    else 1 + min (distance xs (y :: ys)) (min (distance (x :: xs) ys) (distance xs ys))
termination_by xs ys => xs.length + ys.length

/-! ### Rolling hash and the common-substring filter -/

/-- Modelled from the spec: the `rollingState` of the repository
(spec 4.2) keeps a window of the last `W` bytes fed, with a checksum
that is a deterministic function of that window.  The spec fixes no
formula, and only window-determinism is observable downstream (the
filter confirms every checksum match by a byte comparison), so the
state is modelled as the full list of bytes fed and the checksum as
the base-256 value of its last `W` bytes. -/
structure rollingState where
  window : List Nat := []

/-- Modelled from the spec: feed one byte into the rolling state. -/
def rollingState.rollHash (s : rollingState) (b : Nat) : rollingState :=
  ⟨s.window ++ [b]⟩

/-- The last `n` elements of a list. -/
def lastN (n : Nat) (l : List Nat) : List Nat := l.drop (l.length - n)

/-- Modelled from the spec: the windowed checksum, a deterministic
function of the last `W` bytes fed. -/
def rollingState.rollSum (s : rollingState) : Nat :=
  (lastN rollingWindow s.window).foldl (fun acc b => acc * 256 + b) 0

/-- Feed a list of bytes into a rolling state, oldest first. -/
def feedAll (s : rollingState) (l : List Nat) : rollingState :=
  l.foldl rollingState.rollHash s

/-- The length-`W` window of `h` starting at position `i` (byte slice
`h[i : i + rollingWindow]`). -/
def subWindow (h : List Nat) (i : Nat) : List Nat :=
  (h.drop i).take rollingWindow

/-- Embedding of `hasCommonSubstring` (score.go:135-167).  The Go code
caches the rolling sums of `h1` in a slice and rescans it for every
window of `h2`; the cache is inlined here (same values, same result). -/
def hasCommonSubstring (h1 h2 : List Nat) : Bool :=
  if h1.length < rollingWindow ∨ h2.length < rollingWindow then false
  else
    (List.range (h2.length - (rollingWindow - 1))).any fun j =>
      let hj := (feedAll ⟨[]⟩ (h2.take (j + rollingWindow))).rollSum
      (List.range (h1.length - (rollingWindow - 1))).any fun i =>
        ((feedAll ⟨[]⟩ (h1.take (i + rollingWindow))).rollSum == hj)
          && (subWindow h1 i == subWindow h2 j)

/-! ### The parser -/

/-- The two error values of score.go: `ErrEmptyHash` and
`ErrInvalidFormat` (an Atoi failure is wrapped but remains the
invalid-format kind). -/
inductive SsdeepErr where
  | emptyHash : SsdeepErr
  | invalidFormat : SsdeepErr
deriving DecidableEq

/-- First loop of `splitSsdeep` (score.go:68-74): split at the first
colon; `none` when there is no colon (`index == 0` in the source). -/
def breakColon : List Nat → Option (List Nat × List Nat)
  | [] => none
  | b :: rest =>
    if b = 58 then some ([], rest)
    else
      match breakColon rest with
      | none => none
      | some (x, y) => some (b :: x, y)

/-- Go `strconv.Atoi`: optional sign, one or more decimal digits,
value within the signed 64-bit range. -/
def goAtoi (l : List Nat) : Option Int :=
  match l with
  | [] => none
  | c :: _ =>
    let neg := c = 45
    let ds := if c = 45 ∨ c = 43 then l.tail else l
    if ds = [] then none
    else if ds.all (fun b => 48 ≤ b && b ≤ 57) then
      let n : Nat := ds.foldl (fun acc d => acc * 10 + (d - 48)) 0
      if neg then
        if n ≤ 2 ^ 63 then some (-(n : Int)) else none
      else
        if n ≤ 2 ^ 63 - 1 then some (n : Int) else none
    else none

/-- Second and third loops of `splitSsdeep` (score.go:85-128): scan
`l`, collapsing every run of an identical byte beyond length 3 (the
byte is copied while the current run length `seq + 1` is at most 3),
stopping at a colon.  Returns the collapsed segment and, when a colon
was met, the remainder after it. -/
def collapseTo : Nat → Nat → List Nat → List Nat × Option (List Nat)
  | _, _, [] => ([], none)
  | prev, seq, c :: rest =>
    if c = 58 then ([], some rest)
    else if c = prev then
      let r := collapseTo prev (seq + 1) rest
      (if seq + 1 < 3 then c :: r.1 else r.1, r.2)
    else
      let r := collapseTo c 0 rest
      (c :: r.1, r.2)

/-- Embedding of `splitSsdeep` (score.go:57-133). -/
def splitSsdeep (hash : List Nat) : Except SsdeepErr (Int × List Nat × List Nat) :=
  if hash = [] then .error .emptyHash
  else
    match breakColon hash with
    | none => .error .invalidFormat
    | some (sizeField, rest) =>
      match goAtoi sizeField with
      | none => .error .invalidFormat
      | some blockSize =>
        let scan1 := collapseTo 58 0 rest
        match scan1.2 with
        | none => .error .invalidFormat
        | some rest2 =>
          let scan2 := collapseTo 58 0 rest2
          match scan2.2 with
          | some _ => .error .invalidFormat
          | none => .ok (blockSize, scan1.1, scan2.1)

/-! ### Scoring -/

/-- Embedding of `scoreDistance` (score.go:169-188).  The chain of
divisions happens on non-negative Go ints and is modelled by natural
division (identical to Go truncating division on non-negatives); the
final subtraction and the small-block cap live in `ℤ`.  The cap is the
Go expression `int(float64(blockSize) / blockMin * math.Min(...))`,
computed with the exact `F64` model. -/
def scoreDistance (h1 h2 : List Nat) (blockSize : Int) : Int :=
  if ¬ hasCommonSubstring h1 h2 then 0
  else
    let d0 := distance h1 h2
    let d1 := d0 * spamSumLength / (h1.length + h2.length)
    let d2 := 100 * d1 / spamSumLength
    let d : Int := 100 - (d2 : Int)
    if blockSizeSmallLimit ≤ blockSize then d
    else
      let matchSize :=
        f64trunc (f64mul (f64div (f64ofInt blockSize) (f64ofInt (blockMin : Int)))
          (f64min (f64ofInt (h1.length : Int)) (f64ofInt (h2.length : Int))))
      if matchSize < d then matchSize else d

/-- Embedding of `Distance` (score.go:23-55).  `int(math.Max(...))` on
two scores is exact (scores are tiny compared to 2^53) and is modelled
by `max`. -/
def Distance (hash1 hash2 : List Nat) : Except SsdeepErr Int :=
  match splitSsdeep hash1 with
  | .error e => .error e
  | .ok (b1, s11, s12) =>
    match splitSsdeep hash2 with
    | .error e => .error e
    | .ok (b2, s21, s22) =>
      if b1 = b2 ∧ s11.length = s21.length ∧ s12.length = s22.length
          ∧ s11 = s21 ∧ s12 = s22 then
        .ok 100
      else if b1 ≠ b2 ∧ b1 ≠ b2 * 2 ∧ b2 ≠ b1 * 2 then
        .ok 0
      else if b1 = b2 then
        .ok (max (scoreDistance s11 s21 b1) (scoreDistance s12 s22 (b1 * 2)))
      else if b1 = b2 * 2 then
        .ok (scoreDistance s11 s22 b1)
      else
        .ok (scoreDistance s12 s21 b2)

/-! ### Spec-side definitions

These follow the words of the specification or of a claim, for
comparison with the embedded source functions. -/

/-- Spec-side: a byte is a decimal digit. -/
def specDigit (b : Nat) : Prop := 48 ≤ b ∧ b ≤ 57

/-- Decimal value of a digit list, most significant first. -/
def digitsVal (l : List Nat) : Nat := l.foldl (fun acc d => acc * 10 + (d - 48)) 0

/-- Spec-side (amended claim C4): a nonempty all-digit list. -/
def specDigits (l : List Nat) : Prop := l ≠ [] ∧ ∀ b ∈ l, specDigit b

/-- Spec-side (amended claim C4): a valid block-size field, as Go's
`strconv.Atoi` accepts it — an optionally signed decimal integer
within the signed 64-bit range. -/
def validSizeField (l : List Nat) : Prop :=
  (specDigits l ∧ digitsVal l ≤ 2 ^ 63 - 1)
  ∨ (∃ t, l = 43 :: t ∧ specDigits t ∧ digitsVal t ≤ 2 ^ 63 - 1)
  ∨ (∃ t, l = 45 :: t ∧ specDigits t ∧ digitsVal t ≤ 2 ^ 63)

/-- Spec-side (amended claim C4): the raw text decomposes as
`sizeField : r1 : r2` with exactly two colons and a valid size field. -/
def sigDecomp (h : List Nat) : Prop :=
  ∃ sizeField r1 r2, h = sizeField ++ 58 :: (r1 ++ 58 :: r2)
    ∧ 58 ∉ sizeField ∧ 58 ∉ r1 ∧ 58 ∉ r2 ∧ validSizeField sizeField

/-- Four consecutive equal bytes occur somewhere in the list. -/
def hasRun4 : List Nat → Bool
  | a :: b :: c :: d :: rest => (a == b && b == c && c == d) || hasRun4 (b :: c :: d :: rest)
  | _ => false

/-- Length of the maximal leading run of the byte `x`. -/
def leadCount (x : Nat) : List Nat → Nat
  | [] => 0
  | b :: r => if b = x then leadCount x r + 1 else 0

/-- Spec-side (claim C10): the window predicate the filter decides —
both strings reach the window length and share a length-`W` window. -/
def hasCommonWindow (h1 h2 : List Nat) : Prop :=
  rollingWindow ≤ h1.length ∧ rollingWindow ≤ h2.length ∧
    ∃ i j, i + rollingWindow ≤ h1.length ∧ j + rollingWindow ≤ h2.length ∧
      subWindow h1 i = subWindow h2 j

/-- Spec-side (claim C8 as stated): the normalisation chain with the
small-block cap ALSO computed by truncating integer division,
`matchCap = blockSize / U * min(len1, len2)`. -/
def claimNormalize (d len1 len2 : Nat) (blockSize : Int) : Int :=
  let d1 := d * spamSumLength / (len1 + len2)
  let d2 := 100 * d1 / spamSumLength
  let score : Int := 100 - (d2 : Int)
  if blockSize < blockSizeSmallLimit then
    let matchCap := Int.tdiv blockSize (blockMin : Int) * (min len1 len2 : Nat)
    if matchCap < score then matchCap else score
  else score

/-- Spec-side (amended claim C8): the normalisation chain exactly as
the code computes it — truncating integer division in steps 1-3, and
the small-block cap computed in `float64` arithmetic and truncated
toward zero. -/
def specNormalize (d len1 len2 : Nat) (blockSize : Int) : Int :=
  let scaled := d * spamSumLength / (len1 + len2)
  let pct := 100 * scaled / spamSumLength
  let score : Int := 100 - (pct : Int)
  if blockSize < blockSizeSmallLimit then
    let matchCap :=
      f64trunc (f64mul (f64div (f64ofInt blockSize) (f64ofInt (blockMin : Int)))
        (f64min (f64ofInt (len1 : Int)) (f64ofInt (len2 : Int))))
    if matchCap < score then matchCap else score
  else score

/-- Spec-side (amended claim C8): `filteredScore` per spec 4.5 — zero
when the filter finds no shared window, the normalisation chain
otherwise. -/
def specFilteredScore (h1 h2 : List Nat) (blockSize : Int) : Int :=
  if hasCommonSubstring h1 h2 then
    specNormalize (distance h1 h2) h1.length h2.length blockSize
  else 0

/-- Spec-side (claim C10): which part strings the selected branch
compares, all required below the window length. -/
def branchPartsSmall (b1 b2 : Int) (s11 s12 s21 s22 : List Nat) : Prop :=
  if b1 = b2 then
    s11.length < rollingWindow ∧ s21.length < rollingWindow
      ∧ s12.length < rollingWindow ∧ s22.length < rollingWindow
  else if b1 = b2 * 2 then s11.length < rollingWindow ∧ s22.length < rollingWindow
  else if b2 = b1 * 2 then s12.length < rollingWindow ∧ s21.length < rollingWindow
  else True

/-! ### Edit-distance lemmas -/

theorem distance_self (l : List Nat) : distance l l = 0 := by
  induction l with
  | nil => simp [distance]
  | cons x t ih => simp [distance, ih]

theorem distance_eq_zero (xs ys : List Nat) (h : distance xs ys = 0) : xs = ys := by
  induction xs, ys using distance.induct with
  | case1 ys => cases ys <;> simp_all [distance]
  | case2 x xs => simp [distance] at h
  | case3 xs y ys ih => simp_all [distance]
  | case4 x xs y ys hxy ih1 ih2 ih3 => simp [distance, hxy] at h

theorem distance_symm (xs ys : List Nat) : distance xs ys = distance ys xs := by
  induction xs, ys using distance.induct with
  | case1 ys => cases ys <;> simp [distance]
  | case2 x xs => simp [distance]
  | case3 xs y ys ih => simp [distance, ih]
  | case4 x xs y ys hxy ih1 ih2 ih3 =>
    simp only [distance, if_neg hxy, if_neg (Ne.symm hxy), ih1, ih2, ih3]
    omega

theorem distance_cons_cons_eq (x : Nat) (xs ys : List Nat) :
    distance (x :: xs) (x :: ys) = distance xs ys := by
  simp [distance]

theorem distance_le_sum (xs ys : List Nat) :
    distance xs ys ≤ xs.length + ys.length := by
  induction xs, ys using distance.induct with
  | case1 ys => simp [distance]
  | case2 x xs => simp [distance]
  | case3 xs y ys ih =>
    rw [distance_cons_cons_eq]
    simp only [List.length_cons]
    omega
  | case4 x xs y ys hxy ih1 ih2 ih3 =>
    simp only [distance, if_neg hxy, List.length_cons]
    omega

theorem distance_cons_le (p : List Nat) : ∀ c, distance p (c :: p) ≤ 1 := by
  induction p with
  | nil => intro c; simp [distance]
  | cons x t ih =>
    intro c
    by_cases hxc : x = c
    · subst hxc
      rw [distance_cons_cons_eq]
      exact ih x
    · have h1 : distance (x :: t) (c :: x :: t) =
          1 + min (distance t (c :: x :: t))
            (min (distance (x :: t) (x :: t)) (distance t (x :: t))) := by
        simp only [distance, if_neg hxc]
      rw [h1, distance_self]
      omega

theorem distance_insert_le (p : List Nat) :
    ∀ i c, distance p (p.take i ++ c :: p.drop i) ≤ 1 := by
  induction p with
  | nil => intro i c; simp [distance]
  | cons x t ih =>
    intro i c
    cases i with
    | zero => simpa using distance_cons_le (x :: t) c
    | succ i =>
      simp only [List.take_succ_cons, List.drop_succ_cons, List.cons_append]
      rw [distance_cons_cons_eq]
      exact ih i c

/-! ### Common-substring filter lemmas -/

theorem feedAll_window (l : List Nat) :
    ∀ w, (feedAll ⟨w⟩ l).window = w ++ l := by
  induction l with
  | nil => intro w; simp [feedAll]
  | cons b rest ih =>
    intro w
    show (feedAll ⟨w ++ [b]⟩ rest).window = w ++ b :: rest
    rw [ih]
    simp

theorem rollSum_take (h : List Nat) (i : Nat) (hle : i + rollingWindow ≤ h.length) :
    (feedAll ⟨[]⟩ (h.take (i + rollingWindow))).rollSum =
      (subWindow h i).foldl (fun acc b => acc * 256 + b) 0 := by
  have hw : (feedAll (⟨[]⟩ : rollingState) (h.take (i + rollingWindow))).window
      = h.take (i + rollingWindow) := by
    rw [feedAll_window]; simp
  show (lastN rollingWindow _).foldl _ 0 = _
  rw [hw]
  have hlen : (h.take (i + rollingWindow)).length = i + rollingWindow := by
    simp; omega
  have hlast : lastN rollingWindow (h.take (i + rollingWindow)) = subWindow h i := by
    unfold lastN subWindow
    rw [hlen]
    have : i + rollingWindow - rollingWindow = i := by omega
    rw [this]
    exact Eq.symm (List.take_drop i rollingWindow h)
  rw [hlast]

theorem hasCommonWindow_symm {h1 h2 : List Nat}
    (h : hasCommonWindow h1 h2) : hasCommonWindow h2 h1 := by
  obtain ⟨p, q, i, j, hi, hj, hw⟩ := h
  exact ⟨q, p, j, i, hj, hi, hw.symm⟩

theorem hasCommonSubstring_iff (h1 h2 : List Nat) :
    hasCommonSubstring h1 h2 = true ↔ hasCommonWindow h1 h2 := by
  by_cases hg : h1.length < rollingWindow ∨ h2.length < rollingWindow
  · simp only [hasCommonSubstring, if_pos hg]
    constructor
    · intro hfalse; exact absurd hfalse (by simp)
    · rintro ⟨hl1, hl2, -⟩
      exact absurd hg (by omega)
  · push_neg at hg
    obtain ⟨hl1, hl2⟩ := hg
    simp only [hasCommonSubstring, if_neg (by omega : ¬ (h1.length < rollingWindow ∨ h2.length < rollingWindow)),
      List.any_eq_true, List.mem_range, Bool.and_eq_true, beq_iff_eq]
    constructor
    · rintro ⟨j, hj, i, hi, -, hwin⟩
      simp only [rollingWindow] at hj hi
      exact ⟨hl1, hl2, i, j, by simp only [rollingWindow]; omega,
        by simp only [rollingWindow]; omega, hwin⟩
    · rintro ⟨-, -, i, j, hi, hj, hwin⟩
      refine ⟨j, ?_, i, ?_, ?_, hwin⟩
      · simp only [rollingWindow] at hj ⊢; omega
      · simp only [rollingWindow] at hi ⊢; omega
      · rw [rollSum_take h1 i hi, rollSum_take h2 j hj, hwin]

theorem hasCommonSubstring_symm (h1 h2 : List Nat) :
    hasCommonSubstring h1 h2 = hasCommonSubstring h2 h1 := by
  cases hb : hasCommonSubstring h1 h2 with
  | true =>
    have := hasCommonWindow_symm ((hasCommonSubstring_iff h1 h2).mp hb)
    exact ((hasCommonSubstring_iff h2 h1).mpr this).symm
  | false =>
    cases hb2 : hasCommonSubstring h2 h1 with
    | false => rfl
    | true =>
      have := hasCommonWindow_symm ((hasCommonSubstring_iff h2 h1).mp hb2)
      rw [(hasCommonSubstring_iff h1 h2).mpr this] at hb
      exact hb.symm

theorem hasCommonSubstring_lengths {h1 h2 : List Nat}
    (h : hasCommonSubstring h1 h2 = true) :
    rollingWindow ≤ h1.length ∧ rollingWindow ≤ h2.length := by
  obtain ⟨a, b, -⟩ := (hasCommonSubstring_iff h1 h2).mp h
  exact ⟨a, b⟩

theorem hasCommonSubstring_short_left {h1 h2 : List Nat}
    (h : h1.length < rollingWindow) : hasCommonSubstring h1 h2 = false := by
  simp only [hasCommonSubstring, if_pos (Or.inl h)]

theorem hasCommonSubstring_short_right {h1 h2 : List Nat}
    (h : h2.length < rollingWindow) : hasCommonSubstring h1 h2 = false := by
  simp only [hasCommonSubstring, if_pos (Or.inr h)]

/-! ### Canonicality of the float model

The mantissa produced by `roundFracPos` always lies in
`[2 ^ 52, 2 ^ 53)`, so equal double values have equal representations;
this drives the symmetry of `math.Min` and hence of `scoreDistance`. -/

theorem blenAux_zero (fuel : Nat) : blenAux fuel 0 = 0 := by
  cases fuel <;> simp [blenAux]

theorem blenAux_spec : ∀ fuel n, n ≤ fuel → 0 < n →
    2 ^ (blenAux fuel n - 1) ≤ n ∧ n < 2 ^ blenAux fuel n := by
  intro fuel
  induction fuel with
  | zero => intro n h1 h2; omega
  | succ fuel ih =>
    intro n hle hpos
    have hne : n ≠ 0 := by omega
    rw [blenAux, if_neg hne]
    by_cases hn1 : n = 1
    · subst hn1
      norm_num [blenAux_zero]
    · have hhalfpos : 0 < n / 2 := by omega
      have hhalfle : n / 2 ≤ fuel := by omega
      obtain ⟨ha, hb⟩ := ih (n / 2) hhalfle hhalfpos
      set k := blenAux fuel (n / 2) with hk
      have hk1 : 1 ≤ k := by
        by_contra hcon
        have : k = 0 := by omega
        rw [this] at hb
        simp at hb
        omega
      have e1 : 2 ^ k = 2 * 2 ^ (k - 1) := by
        have hks : k - 1 + 1 = k := by omega
        have := pow_succ 2 (k - 1)
        rw [hks] at this
        omega
      have e2 : 2 ^ (k + 1) = 2 * 2 ^ k := by rw [pow_succ]; ring
      constructor
      · have : k + 1 - 1 = k := by omega
        rw [this, e1]
        omega
      · rw [e2]
        omega

theorem blen_spec (n : Nat) (h : 0 < n) :
    2 ^ (blen n - 1) ≤ n ∧ n < 2 ^ blen n :=
  blenAux_spec n n le_rfl h

theorem blen_pos (n : Nat) (h : 0 < n) : 0 < blen n := by
  rcases Nat.eq_zero_or_pos (blen n) with h0 | h1
  · obtain ⟨-, hb⟩ := blen_spec n h
    rw [h0] at hb
    simp at hb
    omega
  · exact h1

/-- The proposition `a / b < 2 ^ e`, in cross-multiplied integer form
(one of the two `toNat` exponents is always zero). -/
def fracLtPow (a b : Nat) (e : Int) : Prop :=
  a * 2 ^ (-e).toNat < b * 2 ^ e.toNat

theorem ltPow2_iff (a b : Nat) (d : Int) :
    ltPow2 a b d = true ↔ fracLtPow a b d := by
  unfold ltPow2 fracLtPow
  by_cases hd : 0 ≤ d
  · rw [if_pos hd]
    have h0 : (-d).toNat = 0 := by omega
    rw [h0]
    simp
  · rw [if_neg hd]
    have h0 : d.toNat = 0 := by omega
    rw [h0]
    simp

theorem fracLtPow_shift (a b : Nat) (e : Int) (s t : Nat)
    (h : (t : Int) - (s : Int) = e) :
    fracLtPow a b e ↔ a * 2 ^ s < b * 2 ^ t := by
  unfold fracLtPow
  set p := e.toNat with hp
  set q := (-e).toNat with hq
  have hpq : s + p = t + q := by omega
  constructor
  · intro hlt
    have step : a * 2 ^ q * 2 ^ s < b * 2 ^ p * 2 ^ s :=
      (Nat.mul_lt_mul_right (pow_pos (by norm_num : (0:ℕ) < 2) s)).mpr hlt
    have lhs : a * 2 ^ q * 2 ^ s = a * 2 ^ s * 2 ^ q := by ring
    have rhs : b * 2 ^ p * 2 ^ s = b * 2 ^ t * 2 ^ q := by
      rw [mul_assoc, mul_assoc, ← pow_add, ← pow_add]
      congr 2
      omega
    rw [lhs, rhs] at step
    exact (Nat.mul_lt_mul_right (pow_pos (by norm_num : (0:ℕ) < 2) q)).mp step
  · intro hlt
    have step : a * 2 ^ s * 2 ^ q < b * 2 ^ t * 2 ^ q :=
      (Nat.mul_lt_mul_right (pow_pos (by norm_num : (0:ℕ) < 2) q)).mpr hlt
    have lhs : a * 2 ^ s * 2 ^ q = a * 2 ^ q * 2 ^ s := by ring
    have rhs : b * 2 ^ t * 2 ^ q = b * 2 ^ p * 2 ^ s := by
      rw [mul_assoc, mul_assoc, ← pow_add, ← pow_add]
      congr 2
      omega
    rw [lhs, rhs] at step
    exact (Nat.mul_lt_mul_right (pow_pos (by norm_num : (0:ℕ) < 2) s)).mp step

theorem fracGePow_shift (a b : Nat) (e : Int) (s t : Nat)
    (h : (s : Int) - (t : Int) = e) :
    ¬ fracLtPow a b e ↔ b * 2 ^ s ≤ a * 2 ^ t := by
  rw [fracLtPow_shift a b e t s (by omega)]
  omega

theorem ilog2Frac_correct (a b : Nat) (ha : 0 < a) (hb : 0 < b) :
    ¬ fracLtPow a b (ilog2Frac a b) ∧ fracLtPow a b (ilog2Frac a b + 1) := by
  obtain ⟨ha1, ha2⟩ := blen_spec a ha
  obtain ⟨hb1, hb2⟩ := blen_spec b hb
  have hA := blen_pos a ha
  have hB := blen_pos b hb
  set A := blen a
  set B := blen b
  have upper : fracLtPow a b ((A : Int) - B + 1) := by
    rw [fracLtPow_shift a b _ (B - 1) A (by omega)]
    calc a * 2 ^ (B - 1)
        < 2 ^ A * 2 ^ (B - 1) :=
          (Nat.mul_lt_mul_right (pow_pos (by norm_num : (0:ℕ) < 2) _)).mpr ha2
      _ ≤ b * 2 ^ A := by
          rw [mul_comm]
          exact Nat.mul_le_mul_right _ hb1
  have lower : ¬ fracLtPow a b ((A : Int) - B - 1) := by
    rw [fracGePow_shift a b _ (A - 1) B (by omega)]
    refine le_of_lt ?_
    calc b * 2 ^ (A - 1)
        < 2 ^ B * 2 ^ (A - 1) :=
          (Nat.mul_lt_mul_right (pow_pos (by norm_num : (0:ℕ) < 2) _)).mpr hb2
      _ ≤ a * 2 ^ B := by
          rw [mul_comm]
          exact Nat.mul_le_mul_right _ ha1
  unfold ilog2Frac
  by_cases hc : ltPow2 a b ((A : Int) - B) = true
  · rw [if_pos hc]
    refine ⟨?_, ?_⟩
    · have : (A : Int) - B - 1 = A - B - 1 := by ring
      simpa using lower
    · have heq : (A : Int) - B - 1 + 1 = A - B := by ring
      rw [heq]
      exact (ltPow2_iff a b _).mp hc
  · rw [if_neg hc]
    refine ⟨?_, upper⟩
    intro hcon
    exact hc ((ltPow2_iff a b _).mpr hcon)

theorem roundNE_ge (p q : Nat) : p / q ≤ roundNE p q := by
  simp only [roundNE]
  split
  · exact le_rfl
  · split
    · omega
    · split <;> omega

theorem roundNE_le (p q : Nat) : roundNE p q ≤ p / q + 1 := by
  simp only [roundNE]
  split
  · omega
  · split
    · omega
    · split <;> omega

theorem roundFracPos_canonical (a b : Nat) (ha : 0 < a) (hb : 0 < b) :
    2 ^ 52 ≤ (roundFracPos a b).1 ∧ (roundFracPos a b).1 < 2 ^ 53 := by
  obtain ⟨hlow, hupp⟩ := ilog2Frac_correct a b ha hb
  unfold roundFracPos
  set e := ilog2Frac a b with he
  have hm : ∀ m : Nat,
      2 ^ 52 ≤ m → m ≤ 2 ^ 53 →
      2 ^ 52 ≤ (if m = 2 ^ 53 then ((2:Nat) ^ 52, e - 51) else (m, e - 52)).1 ∧
        (if m = 2 ^ 53 then ((2:Nat) ^ 52, e - 51) else (m, e - 52)).1 < 2 ^ 53 := by
    intro m h1 h2
    by_cases hm53 : m = 2 ^ 53
    · rw [if_pos hm53]
      norm_num
    · rw [if_neg hm53]
      exact ⟨h1, by omega⟩
  by_cases hu : 0 ≤ (52 : Int) - e
  · simp only [if_pos hu]
    apply hm
    · -- lower bound: 2 ^ 52 * b ≤ a * 2 ^ u, hence 2 ^ 52 ≤ (a * 2 ^ u) / b
      have hcross : b * 2 ^ 52 ≤ a * 2 ^ ((52 : Int) - e).toNat := by
        rw [← fracGePow_shift a b e 52 (((52:Int) - e).toNat) (by omega)]
        exact hlow
      have hdiv : 2 ^ 52 ≤ a * 2 ^ ((52 : Int) - e).toNat / b :=
        (Nat.le_div_iff_mul_le hb).mpr (by omega)
      exact hdiv.trans (roundNE_ge _ _)
    · -- upper bound: a * 2 ^ u < b * 2 ^ 53, hence the quotient is < 2 ^ 53
      have hcross : a * 2 ^ ((52 : Int) - e).toNat < b * 2 ^ 53 := by
        rw [← fracLtPow_shift a b (e + 1) (((52:Int) - e).toNat) 53 (by omega)]
        exact hupp
      have hdiv : a * 2 ^ ((52 : Int) - e).toNat / b < 2 ^ 53 :=
        Nat.div_lt_of_lt_mul (by omega)
      have := roundNE_le (a * 2 ^ ((52 : Int) - e).toNat) b
      omega
  · simp only [if_neg hu]
    have hq : 0 < b * 2 ^ (-(52 - e)).toNat := by positivity
    apply hm
    · have hcross : (b * 2 ^ (-((52:Int) - e)).toNat) * 2 ^ 52 ≤ a := by
        have hrw : (b * 2 ^ (-((52:Int) - e)).toNat) * 2 ^ 52
            = b * 2 ^ ((-((52:Int) - e)).toNat + 52) := by
          rw [mul_assoc, pow_add]
        rw [hrw]
        have := (fracGePow_shift a b e ((-((52:Int) - e)).toNat + 52) 0 (by omega)).mp hlow
        simpa using this
      have hdiv : 2 ^ 52 ≤ a / (b * 2 ^ (-((52:Int) - e)).toNat) :=
        (Nat.le_div_iff_mul_le hq).mpr (by omega)
      exact hdiv.trans (roundNE_ge _ _)
    · have hcross : a < (b * 2 ^ (-((52:Int) - e)).toNat) * 2 ^ 53 := by
        have hrw : (b * 2 ^ (-((52:Int) - e)).toNat) * 2 ^ 53
            = b * 2 ^ ((-((52:Int) - e)).toNat + 53) := by
          rw [mul_assoc, pow_add]
        rw [hrw]
        have := (fracLtPow_shift a b (e + 1) 0 ((-((52:Int) - e)).toNat + 53) (by omega)).mp hupp
        simpa using this
      have hdiv : a / (b * 2 ^ (-((52:Int) - e)).toNat) < 2 ^ 53 :=
        Nat.div_lt_of_lt_mul (by omega)
      have := roundNE_le a (b * 2 ^ (-((52:Int) - e)).toNat)
      omega

/-- Canonical representation: zero, or a mantissa in `[2 ^ 52, 2 ^ 53)`. -/
def F64.canon (x : F64) : Prop :=
  (x.m = 0 ∧ x.e = 0) ∨ (2 ^ 52 ≤ x.m.natAbs ∧ x.m.natAbs < 2 ^ 53)

theorem dyadic_canon (neg : Bool) (a b : Nat) (hb : 0 < b) :
    (dyadic neg a b).canon := by
  unfold dyadic
  by_cases ha : a = 0
  · rw [if_pos ha]
    exact Or.inl ⟨rfl, rfl⟩
  · rw [if_neg ha]
    right
    obtain ⟨h1, h2⟩ := roundFracPos_canonical a b (by omega) hb
    cases neg <;> simp <;> omega

theorem f64ofInt_canon (n : Int) : (f64ofInt n).canon :=
  dyadic_canon _ _ _ (by norm_num)

theorem f64le_total (x y : F64) : f64le x y = true ∨ f64le y x = true := by
  unfold f64le
  simp only [decide_eq_true_eq]
  rw [min_comm y.e x.e]
  exact le_total _ _

theorem f64le_antisymm {x y : F64} (hx : x.canon) (hy : y.canon)
    (h1 : f64le x y = true) (h2 : f64le y x = true) : x = y := by
  unfold f64le at h1 h2
  simp only [decide_eq_true_eq] at h1 h2
  rw [min_comm y.e x.e] at h2
  set s := min x.e y.e with hs
  have heq : x.m * 2 ^ ((x.e - s).toNat) = y.m * 2 ^ ((y.e - s).toNat) :=
    le_antisymm h1 h2
  set p := (x.e - s).toNat with hp
  set q := (y.e - s).toNat with hq
  have habs : x.m.natAbs * 2 ^ p = y.m.natAbs * 2 ^ q := by
    have := congrArg Int.natAbs heq
    simpa [Int.natAbs_mul, Int.natAbs_pow] using this
  rcases hx with ⟨hxm, hxe⟩ | ⟨hxl, hxu⟩
  · rcases hy with ⟨hym, hye⟩ | ⟨hyl, hyu⟩
    · cases x; cases y; simp_all
    · exfalso
      rw [hxm] at heq
      simp only [zero_mul] at heq
      have hy0 : y.m = 0 := by
        rcases mul_eq_zero.mp heq.symm with h | h
        · exact h
        · exact absurd h (by positivity)
      rw [hy0] at hyl
      simp at hyl
  · rcases hy with ⟨hym, hye⟩ | ⟨hyl, hyu⟩
    · exfalso
      rw [hym] at heq
      simp only [zero_mul] at heq
      have hx0 : x.m = 0 := by
        rcases mul_eq_zero.mp heq with h | h
        · exact h
        · exact absurd h (by positivity)
      rw [hx0] at hxl
      simp at hxl
    · have hor : p = 0 ∨ q = 0 := by omega
      have hboth : p = 0 ∧ q = 0 := by
        rcases hor with h | h
        · refine ⟨h, ?_⟩
          by_contra hqne
          have hq1 : (2:ℕ) ≤ 2 ^ q :=
            calc (2:ℕ) = 2 ^ 1 := by norm_num
              _ ≤ 2 ^ q := Nat.pow_le_pow_right (by norm_num) (by omega)
          have hgr : 2 ^ 53 ≤ y.m.natAbs * 2 ^ q :=
            calc (2:ℕ) ^ 53 = 2 ^ 52 * 2 := by norm_num
              _ ≤ y.m.natAbs * 2 ^ q := Nat.mul_le_mul hyl hq1
          rw [h] at habs
          simp only [pow_zero, mul_one] at habs
          omega
        · refine ⟨?_, h⟩
          by_contra hpne
          have hp1 : (2:ℕ) ≤ 2 ^ p :=
            calc (2:ℕ) = 2 ^ 1 := by norm_num
              _ ≤ 2 ^ p := Nat.pow_le_pow_right (by norm_num) (by omega)
          have hgr : 2 ^ 53 ≤ x.m.natAbs * 2 ^ p :=
            calc (2:ℕ) ^ 53 = 2 ^ 52 * 2 := by norm_num
              _ ≤ x.m.natAbs * 2 ^ p := Nat.mul_le_mul hxl hp1
          rw [h] at habs
          simp only [pow_zero, mul_one] at habs
          omega
      obtain ⟨hp0, hq0⟩ := hboth
      rw [hp0, hq0] at heq
      simp only [pow_zero, mul_one] at heq
      have hee : x.e = y.e := by omega
      cases x
      cases y
      simp_all

theorem f64min_comm (x y : F64) (hx : x.canon) (hy : y.canon) :
    f64min x y = f64min y x := by
  unfold f64min
  cases h1 : f64le x y <;> cases h2 : f64le y x
  · rcases f64le_total x y with h | h
    · rw [h] at h1; exact absurd h1 (by simp)
    · rw [h] at h2; exact absurd h2 (by simp)
  · simp [h1, h2]
  · simp [h1, h2]
  · simp only [h1, h2, if_true]
    exact f64le_antisymm hx hy h1 h2

/-! ### Sign facts for the float model -/

theorem dyadic_nonneg (a b : Nat) : 0 ≤ (dyadic false a b).m := by
  unfold dyadic
  by_cases ha : a = 0
  · rw [if_pos ha]
  · rw [if_neg ha]
    simp

theorem f64ofInt_nonneg {n : Int} (h : 0 ≤ n) : 0 ≤ (f64ofInt n).m := by
  unfold f64ofInt
  have hd : decide (n < 0) = false := by simp only [decide_eq_false_iff_not]; omega
  rw [hd]
  exact dyadic_nonneg _ _

theorem f64div_nonneg {x y : F64} (hx : 0 ≤ x.m) (hy : 0 ≤ y.m) :
    0 ≤ (f64div x y).m := by
  have hx2 : decide (x.m < 0) = false := by simp only [decide_eq_false_iff_not]; omega
  have hy2 : decide (y.m < 0) = false := by simp only [decide_eq_false_iff_not]; omega
  simp only [f64div, hx2, hy2, Bool.xor_false]
  exact dyadic_nonneg _ _

theorem f64mul_nonneg {x y : F64} (hx : 0 ≤ x.m) (hy : 0 ≤ y.m) :
    0 ≤ (f64mul x y).m := by
  have hx2 : decide (x.m < 0) = false := by simp only [decide_eq_false_iff_not]; omega
  have hy2 : decide (y.m < 0) = false := by simp only [decide_eq_false_iff_not]; omega
  simp only [f64mul, hx2, hy2, Bool.xor_false]
  exact dyadic_nonneg _ _

theorem f64min_nonneg {x y : F64} (hx : 0 ≤ x.m) (hy : 0 ≤ y.m) :
    0 ≤ (f64min x y).m := by
  unfold f64min
  split
  · exact hx
  · exact hy

theorem f64trunc_nonneg {x : F64} (h : 0 ≤ x.m) : 0 ≤ f64trunc x := by
  unfold f64trunc
  split
  · positivity
  · exact Int.tdiv_nonneg h (by positivity)

/-! ### scoreDistance lemmas -/

theorem scoreDistance_le_100 (h1 h2 : List Nat) (bs : Int) :
    scoreDistance h1 h2 bs ≤ 100 := by
  simp only [scoreDistance]
  split
  · norm_num
  · set pct := 100 * (distance h1 h2 * spamSumLength / (h1.length + h2.length)) / spamSumLength with hpct
    have h0 : (0:ℤ) ≤ (pct : ℤ) := by positivity
    split
    · omega
    · split <;> omega

theorem scoreDistance_nonneg (h1 h2 : List Nat) (bs : Int) (hbs : 0 ≤ bs) :
    0 ≤ scoreDistance h1 h2 bs := by
  simp only [scoreDistance]
  split
  · exact le_refl 0
  · rename_i hcs0
    have hcs : hasCommonSubstring h1 h2 = true := by
      revert hcs0
      cases hasCommonSubstring h1 h2 <;> simp
    obtain ⟨hl1, hl2⟩ := hasCommonSubstring_lengths hcs
    have hlen : 0 < h1.length + h2.length := by
      simp only [rollingWindow] at hl1
      omega
    have hd : distance h1 h2 ≤ h1.length + h2.length := distance_le_sum h1 h2
    set scaled := distance h1 h2 * spamSumLength / (h1.length + h2.length) with hsc
    have hscaled : scaled ≤ spamSumLength := by
      rw [hsc]
      calc distance h1 h2 * spamSumLength / (h1.length + h2.length)
          ≤ (h1.length + h2.length) * spamSumLength / (h1.length + h2.length) :=
            Nat.div_le_div_right (Nat.mul_le_mul_right _ hd)
        _ = spamSumLength := Nat.mul_div_cancel_left _ hlen
    have hpct : 100 * scaled / spamSumLength ≤ 100 := by
      calc 100 * scaled / spamSumLength
          ≤ 100 * spamSumLength / spamSumLength :=
            Nat.div_le_div_right (Nat.mul_le_mul_left _ hscaled)
        _ = 100 := by norm_num [spamSumLength]
    have hms : 0 ≤ f64trunc (f64mul (f64div (f64ofInt bs) (f64ofInt (blockMin : Int)))
        (f64min (f64ofInt (h1.length : Int)) (f64ofInt (h2.length : Int)))) :=
      f64trunc_nonneg (f64mul_nonneg
        (f64div_nonneg (f64ofInt_nonneg hbs) (f64ofInt_nonneg (by norm_num [blockMin])))
        (f64min_nonneg (f64ofInt_nonneg (by positivity)) (f64ofInt_nonneg (by positivity))))
    set pct := 100 * scaled / spamSumLength with hpc
    split
    · omega
    · split <;> omega

theorem scoreDistance_symm (h1 h2 : List Nat) (bs : Int) :
    scoreDistance h1 h2 bs = scoreDistance h2 h1 bs := by
  simp only [scoreDistance]
  rw [hasCommonSubstring_symm h2 h1, distance_symm h2 h1,
    Nat.add_comm h2.length h1.length,
    f64min_comm (f64ofInt (h2.length : Int)) (f64ofInt (h1.length : Int))
      (f64ofInt_canon _) (f64ofInt_canon _)]

/-! ### Parser characterisation lemmas -/

theorem breakColon_none_iff (h : List Nat) : breakColon h = none ↔ 58 ∉ h := by
  induction h with
  | nil => simp [breakColon]
  | cons b rest ih =>
    by_cases hb : b = 58
    · subst hb
      simp [breakColon]
    · simp only [breakColon, if_neg hb, List.mem_cons]
      cases hbc : breakColon rest with
      | none =>
        have h58 : 58 ∉ rest := ih.mp hbc
        constructor
        · rintro - (h | h)
          · exact hb h.symm
          · exact h58 h
        · intro _; rfl
      | some p =>
        constructor
        · intro hcon; cases hcon
        · intro hni
          have : breakColon rest = none := ih.mpr (fun h => hni (Or.inr h))
          rw [this] at hbc
          cases hbc

theorem breakColon_some_iff (h : List Nat) :
    ∀ x y, breakColon h = some (x, y) ↔ h = x ++ 58 :: y ∧ 58 ∉ x := by
  induction h with
  | nil =>
    intro x y
    constructor
    · intro hcon; cases hcon
    · rintro ⟨heq, -⟩
      exact absurd heq.symm (by simp)
  | cons b rest ih =>
    intro x y
    by_cases hb : b = 58
    · subst hb
      have hred : breakColon (58 :: rest) = some ([], rest) := rfl
      rw [hred]
      constructor
      · intro hsome
        injection hsome with hpair
        injection hpair with h1 h2
        subst h1; subst h2
        exact ⟨rfl, by simp⟩
      · rintro ⟨heq, hnx⟩
        cases x with
        | nil =>
          simp only [List.nil_append] at heq
          injection heq with h1 h2
          rw [h2]
        | cons c t =>
          simp only [List.cons_append] at heq
          injection heq with h1 h2
          exact absurd (by rw [h1]; exact List.mem_cons_self c _ : 58 ∈ c :: t) hnx
    · simp only [breakColon, if_neg hb]
      cases hbc : breakColon rest with
      | none =>
        constructor
        · intro hcon; cases hcon
        · rintro ⟨heq, hnx⟩
          cases x with
          | nil =>
            simp only [List.nil_append] at heq
            injection heq with h1 h2
            exact absurd h1 hb
          | cons c t =>
            simp only [List.cons_append] at heq
            injection heq with h1 h2
            have : breakColon rest = some (t, y) :=
              (ih t y).mpr ⟨h2, fun hm => hnx (List.mem_cons_of_mem c hm)⟩
            rw [this] at hbc
            cases hbc
      | some p =>
        obtain ⟨xp, yp⟩ := p
        obtain ⟨hrest, hnxp⟩ := (ih xp yp).mp hbc
        constructor
        · intro hsome
          injection hsome with hpair
          injection hpair with h1 h2
          subst h1; subst h2
          refine ⟨by rw [hrest]; rfl, ?_⟩
          intro hm
          rcases List.mem_cons.mp hm with h | h
          · exact hb h.symm
          · exact hnxp h
        · rintro ⟨heq, hnx⟩
          cases x with
          | nil =>
            simp only [List.nil_append] at heq
            injection heq with h1 h2
            exact absurd h1 hb
          | cons c t =>
            simp only [List.cons_append] at heq
            injection heq with h1 h2
            have : breakColon rest = some (t, y) :=
              (ih t y).mpr ⟨h2, fun hm => hnx (List.mem_cons_of_mem c hm)⟩
            rw [this] at hbc
            injection hbc with hpair
            injection hpair with h3 h4
            subst h1; subst h3; subst h4
            rfl

theorem collapseTo_snd_none_iff (l : List Nat) :
    ∀ prev seq, (collapseTo prev seq l).2 = none ↔ 58 ∉ l := by
  induction l with
  | nil => intro prev seq; simp [collapseTo]
  | cons c rest ih =>
    intro prev seq
    by_cases hc : c = 58
    · subst hc
      simp [collapseTo]
    · simp only [collapseTo, if_neg hc, List.mem_cons]
      by_cases hp : c = prev
      · rw [if_pos hp]
        constructor
        · intro hn
          rintro (h | h)
          · exact hc h.symm
          · exact ((ih prev (seq + 1)).mp hn) h
        · intro hni
          exact (ih prev (seq + 1)).mpr (fun h => hni (Or.inr h))
      · rw [if_neg hp]
        constructor
        · intro hn
          rintro (h | h)
          · exact hc h.symm
          · exact ((ih c 0).mp hn) h
        · intro hni
          exact (ih c 0).mpr (fun h => hni (Or.inr h))

theorem collapseTo_snd_some_iff (l : List Nat) :
    ∀ prev seq r, (collapseTo prev seq l).2 = some r ↔
      ∃ p, l = p ++ 58 :: r ∧ 58 ∉ p := by
  induction l with
  | nil =>
    intro prev seq r
    constructor
    · intro hcon; cases hcon
    · rintro ⟨p, heq, -⟩
      exact absurd heq.symm (by simp)
  | cons c rest ih =>
    intro prev seq r
    by_cases hc : c = 58
    · subst hc
      have hred : collapseTo prev seq (58 :: rest) = ([], some rest) := rfl
      rw [hred]
      constructor
      · intro hsome
        injection hsome with h1
        subst h1
        exact ⟨[], rfl, by simp⟩
      · rintro ⟨p, heq, hnp⟩
        cases p with
        | nil =>
          simp only [List.nil_append] at heq
          injection heq with h1 h2
          rw [h2]
        | cons d t =>
          simp only [List.cons_append] at heq
          injection heq with h1 h2
          exact absurd (by rw [h1]; exact List.mem_cons_self d _ : 58 ∈ d :: t) hnp
    · have bridge : (∃ p, rest = p ++ 58 :: r ∧ 58 ∉ p) ↔
          (∃ p, c :: rest = p ++ 58 :: r ∧ 58 ∉ p) := by
        constructor
        · rintro ⟨p, heq, hnp⟩
          refine ⟨c :: p, by rw [heq]; rfl, ?_⟩
          intro hm
          rcases List.mem_cons.mp hm with h | h
          · exact hc h.symm
          · exact hnp h
        · rintro ⟨p, heq, hnp⟩
          cases p with
          | nil =>
            simp only [List.nil_append] at heq
            injection heq with h1 h2
            exact absurd h1 hc
          | cons d t =>
            simp only [List.cons_append] at heq
            injection heq with h1 h2
            exact ⟨t, h2, fun hm => hnp (List.mem_cons_of_mem d hm)⟩
      simp only [collapseTo, if_neg hc]
      by_cases hp : c = prev
      · rw [if_pos hp]
        dsimp only
        rw [ih prev (seq + 1) r]
        exact bridge
      · rw [if_neg hp]
        dsimp only
        rw [ih c 0 r]
        exact bridge

theorem all_digits_iff (l : List Nat) :
    l.all (fun b => 48 ≤ b && b ≤ 57) = true ↔ ∀ b ∈ l, specDigit b := by
  rw [List.all_eq_true]
  unfold specDigit
  constructor
  · intro h b hb
    have := h b hb
    simp only [Bool.and_eq_true, decide_eq_true_eq] at this
    exact this
  · intro h b hb
    simp only [Bool.and_eq_true, decide_eq_true_eq]
    exact h b hb

theorem goAtoi_isSome_iff (l : List Nat) :
    (goAtoi l).isSome = true ↔ validSizeField l := by
  cases l with
  | nil =>
    simp [goAtoi, validSizeField, specDigits]
  | cons c rest =>
    by_cases h45 : c = 45
    · subst h45
      have hgo : goAtoi (45 :: rest) =
          if rest = [] then none
          else if rest.all (fun b => 48 ≤ b && b ≤ 57) then
            if digitsVal rest ≤ 2 ^ 63 then some (-(digitsVal rest : Int)) else none
          else none := by
        simp [goAtoi, digitsVal]
      have hvf : validSizeField (45 :: rest) ↔
          specDigits rest ∧ digitsVal rest ≤ 2 ^ 63 := by
        unfold validSizeField
        constructor
        · rintro (⟨⟨hne, hall⟩, hbound⟩ | ⟨t, heq, hrest⟩ | ⟨t, heq, hrest⟩)
          · have h45d := hall 45 (List.mem_cons_self _ _)
            unfold specDigit at h45d
            omega
          · injection heq with h1 h2
            omega
          · injection heq with h1 h2
            subst h2
            exact hrest
        · intro hgood
          exact Or.inr (Or.inr ⟨rest, rfl, hgood⟩)
      rw [hgo, hvf]
      by_cases hne : rest = []
      · subst hne
        simp [specDigits]
      · rw [if_neg hne]
        by_cases hall : rest.all (fun b => 48 ≤ b && b ≤ 57) = true
        · rw [if_pos hall]
          by_cases hb : digitsVal rest ≤ 2 ^ 63
          · rw [if_pos hb]
            simp only [Option.isSome_some, true_iff]
            exact ⟨⟨hne, (all_digits_iff rest).mp hall⟩, hb⟩
          · rw [if_neg hb]
            simp only [Option.isSome_none, Bool.false_eq_true, false_iff]
            rintro ⟨-, hbb⟩
            exact hb hbb
        · rw [if_neg hall]
          simp only [Option.isSome_none, Bool.false_eq_true, false_iff]
          rintro ⟨⟨-, hdig⟩, -⟩
          exact hall ((all_digits_iff rest).mpr hdig)
    · by_cases h43 : c = 43
      · subst h43
        have hgo : goAtoi (43 :: rest) =
            if rest = [] then none
            else if rest.all (fun b => 48 ≤ b && b ≤ 57) then
              if digitsVal rest ≤ 2 ^ 63 - 1 then some ((digitsVal rest : Int)) else none
            else none := by
          simp [goAtoi, digitsVal]
        have hvf : validSizeField (43 :: rest) ↔
            specDigits rest ∧ digitsVal rest ≤ 2 ^ 63 - 1 := by
          unfold validSizeField
          constructor
          · rintro (⟨⟨hne, hall⟩, hbound⟩ | ⟨t, heq, hrest⟩ | ⟨t, heq, hrest⟩)
            · have h43d := hall 43 (List.mem_cons_self _ _)
              unfold specDigit at h43d
              omega
            · injection heq with h1 h2
              subst h2
              exact hrest
            · injection heq with h1 h2
              omega
          · intro hgood
            exact Or.inr (Or.inl ⟨rest, rfl, hgood⟩)
        rw [hgo, hvf]
        by_cases hne : rest = []
        · subst hne
          simp [specDigits]
        · rw [if_neg hne]
          by_cases hall : rest.all (fun b => 48 ≤ b && b ≤ 57) = true
          · rw [if_pos hall]
            by_cases hb : digitsVal rest ≤ 2 ^ 63 - 1
            · rw [if_pos hb]
              simp only [Option.isSome_some, true_iff]
              exact ⟨⟨hne, (all_digits_iff rest).mp hall⟩, hb⟩
            · rw [if_neg hb]
              simp only [Option.isSome_none, Bool.false_eq_true, false_iff]
              rintro ⟨-, hbb⟩
              exact hb hbb
          · rw [if_neg hall]
            simp only [Option.isSome_none, Bool.false_eq_true, false_iff]
            rintro ⟨⟨-, hdig⟩, -⟩
            exact hall ((all_digits_iff rest).mpr hdig)
      · have hgo : goAtoi (c :: rest) =
            if (c :: rest).all (fun b => 48 ≤ b && b ≤ 57) then
              if digitsVal (c :: rest) ≤ 2 ^ 63 - 1 then some ((digitsVal (c :: rest) : Int))
              else none
            else none := by
          simp [goAtoi, digitsVal, h45, h43]
        have hvf : validSizeField (c :: rest) ↔
            specDigits (c :: rest) ∧ digitsVal (c :: rest) ≤ 2 ^ 63 - 1 := by
          unfold validSizeField
          constructor
          · rintro (⟨hd, hbound⟩ | ⟨t, heq, hrest⟩ | ⟨t, heq, hrest⟩)
            · exact ⟨hd, hbound⟩
            · injection heq with h1 h2
              exact absurd h1 h43
            · injection heq with h1 h2
              exact absurd h1 h45
          · intro hgood
            exact Or.inl hgood
        rw [hgo, hvf]
        by_cases hall : (c :: rest).all (fun b => 48 ≤ b && b ≤ 57) = true
        · rw [if_pos hall]
          by_cases hb : digitsVal (c :: rest) ≤ 2 ^ 63 - 1
          · rw [if_pos hb]
            simp only [Option.isSome_some, true_iff]
            exact ⟨⟨by simp, (all_digits_iff _).mp hall⟩, hb⟩
          · rw [if_neg hb]
            simp only [Option.isSome_none, Bool.false_eq_true, false_iff]
            rintro ⟨-, hbb⟩
            exact hb hbb
        · rw [if_neg hall]
          simp only [Option.isSome_none, Bool.false_eq_true, false_iff]
          rintro ⟨⟨-, hdig⟩, -⟩
          exact hall ((all_digits_iff _).mpr hdig)

theorem colon_decomp_unique {p1 p2 s1 s2 : List Nat}
    (heq : p1 ++ 58 :: s1 = p2 ++ 58 :: s2) (h1 : 58 ∉ p1) (h2 : 58 ∉ p2) :
    p1 = p2 ∧ s1 = s2 := by
  have e1 : breakColon (p1 ++ 58 :: s1) = some (p1, s1) :=
    (breakColon_some_iff _ _ _).mpr ⟨rfl, h1⟩
  have e2 : breakColon (p1 ++ 58 :: s1) = some (p2, s2) :=
    (breakColon_some_iff _ _ _).mpr ⟨heq, h2⟩
  rw [e1] at e2
  injection e2 with hp
  injection hp with ha hb
  exact ⟨ha, hb⟩

/-- Full outcome trichotomy for the parser: empty input, a well-formed
decomposition, or a malformed signature. -/
theorem splitSsdeep_cases (h : List Nat) :
    (h = [] ∧ splitSsdeep h = .error .emptyHash) ∨
    (h ≠ [] ∧ sigDecomp h ∧ ∃ t, splitSsdeep h = .ok t) ∨
    (h ≠ [] ∧ ¬ sigDecomp h ∧ splitSsdeep h = .error .invalidFormat) := by
  by_cases hne : h = []
  · left
    refine ⟨hne, ?_⟩
    rw [hne]
    rfl
  · right
    cases hbc : breakColon h with
    | none =>
      right
      refine ⟨hne, ?_, by simp only [splitSsdeep, if_neg hne, hbc]⟩
      rintro ⟨sf, r1, r2, heq, hn1, hn2, hn3, hval⟩
      have hb2 : breakColon h = some (sf, r1 ++ 58 :: r2) :=
        (breakColon_some_iff h sf _).mpr ⟨heq, hn1⟩
      rw [hbc] at hb2
      cases hb2
    | some pr =>
      obtain ⟨sf, rest⟩ := pr
      obtain ⟨heqh, hnsf⟩ := (breakColon_some_iff h sf rest).mp hbc
      cases hgo : goAtoi sf with
      | none =>
        right
        refine ⟨hne, ?_, by simp only [splitSsdeep, if_neg hne, hbc, hgo]⟩
        rintro ⟨sf2, r1, r2, heq, hn1, hn2, hn3, hval⟩
        have hb2 : breakColon h = some (sf2, r1 ++ 58 :: r2) :=
          (breakColon_some_iff h sf2 _).mpr ⟨heq, hn1⟩
        rw [hbc] at hb2
        injection hb2 with hp
        injection hp with hsf hrest
        subst hsf
        have hsome := (goAtoi_isSome_iff sf).mpr hval
        rw [hgo] at hsome
        cases hsome
      | some z =>
        cases hsnd : (collapseTo 58 0 rest).2 with
        | none =>
          right
          obtain ⟨p1, hp1⟩ : ∃ p1, collapseTo 58 0 rest = (p1, none) :=
            ⟨(collapseTo 58 0 rest).1, by rw [← hsnd]⟩
          refine ⟨hne, ?_, by simp only [splitSsdeep, if_neg hne, hbc, hgo, hp1]⟩
          rintro ⟨sf2, r1, r2, heq, hn1, hn2, hn3, hval⟩
          obtain ⟨hsf, hrest⟩ := colon_decomp_unique (heqh.symm.trans heq) hnsf hn1
          have h2s : (collapseTo 58 0 rest).2 = some r2 :=
            (collapseTo_snd_some_iff rest 58 0 r2).mpr ⟨r1, hrest, hn2⟩
          rw [hsnd] at h2s
          cases h2s
        | some rest2 =>
          obtain ⟨p1, hp1⟩ : ∃ p1, collapseTo 58 0 rest = (p1, some rest2) :=
            ⟨(collapseTo 58 0 rest).1, by rw [← hsnd]⟩
          obtain ⟨q1, hrest_eq, hq1⟩ := (collapseTo_snd_some_iff rest 58 0 rest2).mp hsnd
          cases hsnd2 : (collapseTo 58 0 rest2).2 with
          | some r3 =>
            right
            obtain ⟨p2, hp2⟩ : ∃ p2, collapseTo 58 0 rest2 = (p2, some r3) :=
              ⟨(collapseTo 58 0 rest2).1, by rw [← hsnd2]⟩
            refine ⟨hne, ?_, by simp only [splitSsdeep, if_neg hne, hbc, hgo, hp1, hp2]⟩
            rintro ⟨sf2, r1, r2, heq, hn1, hn2, hn3, hval⟩
            obtain ⟨hsf, hrest⟩ := colon_decomp_unique (heqh.symm.trans heq) hnsf hn1
            obtain ⟨hq1r1, hr2⟩ :=
              colon_decomp_unique ((hrest_eq.symm.trans hrest) :
                q1 ++ 58 :: rest2 = r1 ++ 58 :: r2) hq1 hn2
            obtain ⟨pp, hpp, -⟩ := (collapseTo_snd_some_iff rest2 58 0 r3).mp hsnd2
            rw [hr2] at hpp
            exact hn3 (by rw [hpp]; exact List.mem_append_right pp (List.mem_cons_self _ _))
          | none =>
            left
            obtain ⟨p2, hp2⟩ : ∃ p2, collapseTo 58 0 rest2 = (p2, none) :=
              ⟨(collapseTo 58 0 rest2).1, by rw [← hsnd2]⟩
            refine ⟨hne, ?_, ⟨(z, p1, p2), by simp only [splitSsdeep, if_neg hne, hbc, hgo, hp1, hp2]⟩⟩
            exact ⟨sf, q1, rest2, by rw [heqh, hrest_eq], hnsf, hq1,
              (collapseTo_snd_none_iff rest2 58 0).mp hsnd2,
              (goAtoi_isSome_iff sf).mp (by rw [hgo]; rfl)⟩

/-! ### Run-collapse lemmas (claim C1) -/

theorem hasRun4_cons (c : Nat) (t : List Nat) (hno : hasRun4 t = false)
    (hlc : leadCount c t ≤ 2) : hasRun4 (c :: t) = false := by
  cases t with
  | nil => rfl
  | cons b t2 =>
    cases t2 with
    | nil => rfl
    | cons c2 t3 =>
      cases t3 with
      | nil => rfl
      | cons d2 t4 =>
        show (c == b && b == c2 && c2 == d2 || hasRun4 (b :: c2 :: d2 :: t4)) = false
        rw [hno, Bool.or_false]
        cases hb1 : (c == b && b == c2 && c2 == d2) with
        | false => rfl
        | true =>
          exfalso
          simp only [Bool.and_eq_true, beq_iff_eq] at hb1
          obtain ⟨⟨h1, h2⟩, h3⟩ := hb1
          subst h1
          subst h2
          subst h3
          simp [leadCount] at hlc

theorem collapseTo_noRun4 (l : List Nat) :
    ∀ prev seq, hasRun4 (collapseTo prev seq l).1 = false ∧
      leadCount prev (collapseTo prev seq l).1 + min seq 2 ≤ 2 := by
  induction l with
  | nil => intro prev seq; simp [collapseTo, hasRun4, leadCount]
  | cons c rest ih =>
    intro prev seq
    by_cases hc : c = 58
    · subst hc
      have hred : collapseTo prev seq (58 :: rest) = ([], some rest) := rfl
      rw [hred]
      simp [hasRun4, leadCount]
    · simp only [collapseTo, if_neg hc]
      by_cases hp : c = prev
      · rw [if_pos hp]
        obtain ⟨ihno, ihlead⟩ := ih prev (seq + 1)
        by_cases hlt : seq + 1 < 3
        · rw [if_pos hlt]
          dsimp only
          subst hp
          constructor
          · exact hasRun4_cons _ _ ihno (by omega)
          · have hstep : leadCount c (c :: (collapseTo c (seq + 1) rest).1)
                = leadCount c (collapseTo c (seq + 1) rest).1 + 1 := by
              simp [leadCount]
            rw [hstep]
            omega
        · rw [if_neg hlt]
          dsimp only
          exact ⟨ihno, by omega⟩
      · rw [if_neg hp]
        dsimp only
        obtain ⟨ihno, ihlead⟩ := ih c 0
        constructor
        · exact hasRun4_cons _ _ ihno (by omega)
        · simp only [leadCount, if_neg hp]
          omega

theorem splitSsdeep_noRun4 {h : List Nat} {b : Int} {p1 p2 : List Nat}
    (hok : splitSsdeep h = .ok (b, p1, p2)) :
    hasRun4 p1 = false ∧ hasRun4 p2 = false := by
  by_cases hne : h = []
  · rw [hne] at hok
    cases hok
  · cases hbc : breakColon h with
    | none => rw [splitSsdeep, if_neg hne, hbc] at hok; cases hok
    | some pr =>
      obtain ⟨sf, rest⟩ := pr
      cases hgo : goAtoi sf with
      | none =>
        rw [splitSsdeep, if_neg hne] at hok
        simp only [hbc, hgo] at hok
        cases hok
      | some z =>
        cases hsnd : (collapseTo 58 0 rest).2 with
        | none =>
          obtain ⟨q1, hq1⟩ : ∃ q1, collapseTo 58 0 rest = (q1, none) :=
            ⟨(collapseTo 58 0 rest).1, by rw [← hsnd]⟩
          rw [splitSsdeep, if_neg hne] at hok
          simp only [hbc, hgo, hq1] at hok
          cases hok
        | some rest2 =>
          obtain ⟨q1, hq1⟩ : ∃ q1, collapseTo 58 0 rest = (q1, some rest2) :=
            ⟨(collapseTo 58 0 rest).1, by rw [← hsnd]⟩
          cases hsnd2 : (collapseTo 58 0 rest2).2 with
          | some r3 =>
            obtain ⟨q2, hq2⟩ : ∃ q2, collapseTo 58 0 rest2 = (q2, some r3) :=
              ⟨(collapseTo 58 0 rest2).1, by rw [← hsnd2]⟩
            rw [splitSsdeep, if_neg hne] at hok
            simp only [hbc, hgo, hq1, hq2] at hok
            cases hok
          | none =>
            obtain ⟨q2, hq2⟩ : ∃ q2, collapseTo 58 0 rest2 = (q2, none) :=
              ⟨(collapseTo 58 0 rest2).1, by rw [← hsnd2]⟩
            rw [splitSsdeep, if_neg hne] at hok
            simp only [hbc, hgo, hq1, hq2, Except.ok.injEq, Prod.mk.injEq] at hok
            obtain ⟨hz, hp1, hp2⟩ := hok
            rw [← hp1, ← hp2]
            constructor
            · have i1 := (collapseTo_noRun4 rest 58 0).1
              rw [hq1] at i1
              exact i1
            · have i2 := (collapseTo_noRun4 rest2 58 0).1
              rw [hq2] at i2
              exact i2

/-! ### Distance-level helpers -/

theorem Distance_eq (h1 h2 : List Nat) (b1 b2 : Int) (s11 s12 s21 s22 : List Nat)
    (hp1 : splitSsdeep h1 = .ok (b1, s11, s12))
    (hp2 : splitSsdeep h2 = .ok (b2, s21, s22)) :
    Distance h1 h2 =
      (if b1 = b2 ∧ s11.length = s21.length ∧ s12.length = s22.length
          ∧ s11 = s21 ∧ s12 = s22 then
        .ok 100
      else if b1 ≠ b2 ∧ b1 ≠ b2 * 2 ∧ b2 ≠ b1 * 2 then .ok 0
      else if b1 = b2 then
        .ok (max (scoreDistance s11 s21 b1) (scoreDistance s12 s22 (b1 * 2)))
      else if b1 = b2 * 2 then .ok (scoreDistance s11 s22 b1)
      else .ok (scoreDistance s12 s21 b2)) := by
  simp only [Distance, hp1, hp2]

theorem splitSsdeep_empty_iff (h : List Nat) :
    splitSsdeep h = .error .emptyHash ↔ h = [] := by
  rcases splitSsdeep_cases h with ⟨he, hs⟩ | ⟨hne, -, t, hs⟩ | ⟨hne, -, hs⟩
  · rw [hs]
    simp [he]
  · rw [hs]
    simp [hne]
  · rw [hs]
    simp [hne]

theorem splitSsdeep_invalid_iff (h : List Nat) :
    splitSsdeep h = .error .invalidFormat ↔ h ≠ [] ∧ ¬ sigDecomp h := by
  rcases splitSsdeep_cases h with ⟨he, hs⟩ | ⟨hne, hd, t, hs⟩ | ⟨hne, hd, hs⟩
  · rw [hs]
    simp [he]
  · rw [hs]
    simp [hne, hd]
  · rw [hs]
    simp [hne, hd]

theorem splitSsdeep_ok_iff (h : List Nat) :
    (∃ t, splitSsdeep h = .ok t) ↔ sigDecomp h := by
  rcases splitSsdeep_cases h with ⟨he, hs⟩ | ⟨hne, hd, t, hs⟩ | ⟨hne, hd, hs⟩
  · rw [hs]
    constructor
    · rintro ⟨t, ht⟩; cases ht
    · intro hdec
      obtain ⟨sf, r1, r2, heq, -⟩ := hdec
      rw [he] at heq
      exact absurd heq.symm (by simp)
  · rw [hs]
    exact ⟨fun _ => hd, fun _ => ⟨t, rfl⟩⟩
  · rw [hs]
    constructor
    · rintro ⟨t, ht⟩; cases ht
    · intro hdec; exact absurd hdec hd

theorem Distance_error_iff (h1 h2 : List Nat) (e : SsdeepErr) :
    Distance h1 h2 = .error e ↔
      splitSsdeep h1 = .error e ∨
        ((∃ t, splitSsdeep h1 = .ok t) ∧ splitSsdeep h2 = .error e) := by
  cases hs1 : splitSsdeep h1 with
  | error e1 =>
    simp only [Distance, hs1]
    constructor
    · intro hh
      injection hh with he
      subst he
      exact Or.inl rfl
    · rintro (hh | ⟨⟨t, ht⟩, -⟩)
      · injection hh with he
        subst he
        rfl
      · cases ht
  | ok t1 =>
    obtain ⟨b1, s11, s12⟩ := t1
    cases hs2 : splitSsdeep h2 with
    | error e2 =>
      simp only [Distance, hs1, hs2]
      constructor
      · intro hh
        injection hh with he
        subst he
        exact Or.inr ⟨⟨_, rfl⟩, rfl⟩
      · rintro (hh | ⟨-, hh⟩)
        · cases hh
        · injection hh with he
          subst he
          rfl
    | ok t2 =>
      obtain ⟨b2, s21, s22⟩ := t2
      rw [Distance_eq h1 h2 b1 b2 s11 s12 s21 s22 hs1 hs2]
      constructor
      · intro hcon
        exfalso
        split at hcon
        · cases hcon
        · split at hcon
          · cases hcon
          · split at hcon
            · cases hcon
            · split at hcon
              · cases hcon
              · cases hcon
      · rintro (hh | ⟨-, hh⟩)
        · cases hh
        · cases hh

theorem Distance_ok_iff (h1 h2 : List Nat) :
    (∃ n, Distance h1 h2 = .ok n) ↔
      (∃ t, splitSsdeep h1 = .ok t) ∧ (∃ t, splitSsdeep h2 = .ok t) := by
  cases hs1 : splitSsdeep h1 with
  | error e1 =>
    simp only [Distance, hs1]
    constructor
    · rintro ⟨n, hn⟩; cases hn
    · rintro ⟨⟨t, ht⟩, -⟩; cases ht
  | ok t1 =>
    obtain ⟨b1, s11, s12⟩ := t1
    cases hs2 : splitSsdeep h2 with
    | error e2 =>
      simp only [Distance, hs1, hs2]
      constructor
      · rintro ⟨n, hn⟩; cases hn
      · rintro ⟨-, ⟨t, ht⟩⟩; cases ht
    | ok t2 =>
      obtain ⟨b2, s21, s22⟩ := t2
      rw [Distance_eq h1 h2 b1 b2 s11 s12 s21 s22 hs1 hs2]
      constructor
      · intro _
        exact ⟨⟨_, rfl⟩, ⟨_, rfl⟩⟩
      · intro _
        split
        · exact ⟨100, rfl⟩
        · split
          · exact ⟨0, rfl⟩
          · split
            · exact ⟨_, rfl⟩
            · split
              · exact ⟨_, rfl⟩
              · exact ⟨_, rfl⟩

/-- Unfolding of `scoreDistance` when the filter passes and no
small-block cap applies. -/
theorem scoreDistance_eq_of_common {h1 h2 : List Nat} {bs : Int}
    (hc : hasCommonSubstring h1 h2 = true) (hbs : blockSizeSmallLimit ≤ bs) :
    scoreDistance h1 h2 bs =
      100 - ((100 * (distance h1 h2 * spamSumLength / (h1.length + h2.length))
        / spamSumLength : ℕ) : ℤ) := by
  simp only [scoreDistance, hc, eq_self_iff_true, not_true, if_false]
  rw [if_pos hbs]

/-- Unfolding of `scoreDistance` when the filter passes and the
small-block cap applies. -/
theorem scoreDistance_eq_of_common_cap {h1 h2 : List Nat} {bs : Int}
    (hc : hasCommonSubstring h1 h2 = true) (hbs : bs < blockSizeSmallLimit) :
    scoreDistance h1 h2 bs =
      (if f64trunc (f64mul (f64div (f64ofInt bs) (f64ofInt (blockMin : Int)))
            (f64min (f64ofInt (h1.length : Int)) (f64ofInt (h2.length : Int)))) <
          100 - ((100 * (distance h1 h2 * spamSumLength / (h1.length + h2.length))
            / spamSumLength : ℕ) : ℤ) then
        f64trunc (f64mul (f64div (f64ofInt bs) (f64ofInt (blockMin : Int)))
          (f64min (f64ofInt (h1.length : Int)) (f64ofInt (h2.length : Int))))
      else
        100 - ((100 * (distance h1 h2 * spamSumLength / (h1.length + h2.length))
          / spamSumLength : ℕ) : ℤ)) := by
  simp only [scoreDistance, hc, eq_self_iff_true, not_true, if_false]
  rw [if_neg (not_le.mpr hbs)]

set_option maxHeartbeats 16000000 in
/-- The small-block cap `int(float64(bs)/3 * min(len1, len2))` is at least 1
for every block size in `[1, 44]` (the capped range) and every shorter length
in `[7, 31]` (the compared parts reach the rolling window and their lengths
sum to at most `spamSumLength = 64`), checked exhaustively over the exact
float64 model. -/
theorem f64cap_pos : ∀ bn : Nat, bn < 44 → ∀ pn : Nat, pn < 25 →
    1 ≤ f64trunc (f64mul (f64div (f64ofInt ((bn : Int) + 1)) (f64ofInt (blockMin : Int)))
      (f64min (f64ofInt ((pn : Int) + 7)) (f64ofInt ((pn : Int) + 8)))) := by decide

/-- Core bound for the single-insertion property: if `q` is `p` with one
byte inserted, `p` reaches the window, the lengths sum to at most 64, the
block size is positive and the filter passes, then `scoreDistance p q bs`
is strictly between 0 and 100 — in the small-block branch because the
float cap is at least 1 (`f64cap_pos`). -/
theorem scoreDistance_insert_bounds (p : List Nat) (i c : Nat) (q : List Nat)
    (bs : Int)
    (hq : q = p.take i ++ c :: p.drop i)
    (h7 : 7 ≤ p.length)
    (hsum : p.length + q.length ≤ 64)
    (hbs : 1 ≤ bs)
    (hcs : hasCommonSubstring p q = true) :
    0 < scoreDistance p q bs ∧ scoreDistance p q bs < 100 := by
  have hqlen : q.length = p.length + 1 := by
    rw [hq]
    simp only [List.length_append, List.length_cons, List.length_take,
      List.length_drop]
    omega
  have hdist : distance p q = 1 := by
    have hle : distance p q ≤ 1 := by
      rw [hq]
      exact distance_insert_le p i c
    have hne : ¬ distance p q = 0 := by
      intro h0
      have heq := distance_eq_zero p q h0
      rw [heq] at hqlen
      omega
    omega
  have hL1 : 15 ≤ p.length + q.length := by omega
  have hL2 : p.length + q.length ≤ 64 := hsum
  have hscaled1 : 1 ≤ 64 / (p.length + q.length) :=
    (Nat.one_le_div_iff (by omega)).mpr hL2
  have hscaled2 : 64 / (p.length + q.length) ≤ 4 := by
    calc 64 / (p.length + q.length) ≤ 64 / 15 :=
        Nat.div_le_div_left hL1 (by norm_num)
      _ = 4 := by norm_num
  have hpct1 : 1 ≤ 100 * (64 / (p.length + q.length)) / 64 := by
    calc (1:ℕ) = 100 * 1 / 64 := by norm_num
      _ ≤ 100 * (64 / (p.length + q.length)) / 64 :=
        Nat.div_le_div_right (Nat.mul_le_mul_left _ hscaled1)
  have hpct2 : 100 * (64 / (p.length + q.length)) / 64 ≤ 6 := by
    calc 100 * (64 / (p.length + q.length)) / 64 ≤ 100 * 4 / 64 :=
        Nat.div_le_div_right (Nat.mul_le_mul_left _ hscaled2)
      _ = 6 := by norm_num
  by_cases hbs45 : blockSizeSmallLimit ≤ bs
  · rw [scoreDistance_eq_of_common hcs hbs45, hdist]
    simp only [spamSumLength, one_mul]
    omega
  · have hlt : bs < blockSizeSmallLimit := lt_of_not_le hbs45
    have hbs44 : bs < (45:ℤ) := by simpa [blockSizeSmallLimit] using hlt
    rw [scoreDistance_eq_of_common_cap hcs hlt, hdist]
    simp only [spamSumLength, one_mul]
    have hcap : 1 ≤ f64trunc (f64mul (f64div (f64ofInt bs) (f64ofInt (blockMin : Int)))
        (f64min (f64ofInt (p.length : Int)) (f64ofInt (q.length : Int)))) := by
      have e1 : bs = ((bs.toNat - 1 : Nat) : Int) + 1 := by omega
      have e2 : (p.length : Int) = ((p.length - 7 : Nat) : Int) + 7 := by omega
      have e3 : (q.length : Int) = ((p.length - 7 : Nat) : Int) + 8 := by omega
      rw [e1, e2, e3]
      exact f64cap_pos (bs.toNat - 1) (by omega) (p.length - 7) (by omega)
    constructor
    · split
      · omega
      · omega
    · split
      · omega
      · omega

/-! ### The claims -/

/-- C1 (counterexample): parsing `"3:aaaaa:bb"` yields `part1 = "aaa"`,
not `"aa"` as the claim states — the scan keeps runs of up to three
identical bytes (`seq < 3` counts from 0), it does not collapse to two. -/
theorem claim_C1_counterexample :
    splitSsdeep (ascii "3:aaaaa:bb") = .ok (3, ascii "aaa", ascii "bb")
      ∧ ascii "aaa" ≠ ascii "aa" :=
  ⟨rfl, by decide⟩

/-- C1 (amended): the parser collapses any run of 4 or more identical
consecutive bytes in part1 and part2 down to exactly 3, so no byte
repeats more than three times consecutively in the parsed parts; in
particular parsing `"3:aaaaa:bb"` yields `part1 = "aaa"`. -/
theorem claim_C1_runs_collapse_to_three :
    (∀ (h : List Nat) (b : Int) (p1 p2 : List Nat),
        splitSsdeep h = .ok (b, p1, p2) →
          hasRun4 p1 = false ∧ hasRun4 p2 = false) ∧
    splitSsdeep (ascii "3:aaaaa:bb") = .ok (3, ascii "aaa", ascii "bb") :=
  ⟨fun _ _ _ _ hok => splitSsdeep_noRun4 hok, rfl⟩

/-- C1 witness: the general part of the amended claim applied to the
concrete input `"3:aaaaa:bb"`. -/
theorem claim_C1_witness :
    hasRun4 (ascii "aaa") = false ∧ hasRun4 (ascii "bb") = false :=
  claim_C1_runs_collapse_to_three.1 (ascii "3:aaaaa:bb") 3 (ascii "aaa")
    (ascii "bb") (by rfl)

/-- C4 (counterexample): `"-3:aa:bb"` is NOT rejected — Go's
`strconv.Atoi` accepts a leading minus sign, so the signature parses
and `Distance` returns a score with no error, refuting the claim that
a negative block-size field yields `MalformedSignature`. -/
theorem claim_C4_counterexample :
    Distance (ascii "-3:aa:bb") (ascii "3:aa:bb") = .ok 0 :=
  rfl

/-- C4 (amended): `Distance` returns an error iff at least one input
fails to parse — `EmptyInput` exactly when the (first failing) input
is empty, `MalformedSignature` exactly when the non-empty input has no
colon-delimited leading field that `strconv.Atoi` accepts (an
optionally SIGNED base-10 integer within the signed 64-bit range —
negative block sizes are accepted), or the second colon is missing, or
an extra colon appears while scanning the final field; both inputs
parse iff both decompose as `size:part1:part2`. -/
theorem claim_C4_amended (h1 h2 : List Nat) :
    (Distance h1 h2 = .error .emptyHash ↔
      h1 = [] ∨ (sigDecomp h1 ∧ h2 = [])) ∧
    (Distance h1 h2 = .error .invalidFormat ↔
      (h1 ≠ [] ∧ ¬ sigDecomp h1) ∨ (sigDecomp h1 ∧ h2 ≠ [] ∧ ¬ sigDecomp h2)) ∧
    ((∃ t, splitSsdeep h1 = .ok t) ↔ sigDecomp h1) ∧
    ((∃ n, Distance h1 h2 = .ok n) ↔ sigDecomp h1 ∧ sigDecomp h2) := by
  refine ⟨?_, ?_, splitSsdeep_ok_iff h1, ?_⟩
  · rw [Distance_error_iff h1 h2 .emptyHash, splitSsdeep_empty_iff,
      splitSsdeep_empty_iff, splitSsdeep_ok_iff]
  · rw [Distance_error_iff h1 h2 .invalidFormat, splitSsdeep_invalid_iff,
      splitSsdeep_invalid_iff, splitSsdeep_ok_iff]
  · rw [Distance_ok_iff h1 h2, splitSsdeep_ok_iff, splitSsdeep_ok_iff]

/-- C6: for every valid signature, comparing it against itself takes
the exact-match fast path and returns 100. -/
theorem claim_C6_self_is_100 (s : List Nat) (t : Int × List Nat × List Nat)
    (hp : splitSsdeep s = .ok t) : Distance s s = .ok 100 := by
  obtain ⟨b, p1, p2⟩ := t
  rw [Distance_eq s s b b p1 p2 p1 p2 hp hp,
    if_pos ⟨rfl, rfl, rfl, rfl, rfl⟩]

/-- C6 witness: a concrete valid signature compared against itself. -/
theorem claim_C6_witness :
    Distance (ascii "3:abc:defg") (ascii "3:abc:defg") = .ok 100 :=
  claim_C6_self_is_100 (ascii "3:abc:defg") (3, ascii "abc", ascii "defg") rfl

/-- C7: block sizes neither equal nor related by an exact factor of
two yield score 0 with no error. -/
theorem claim_C7_incompatible_zero (h1 h2 : List Nat) (b1 b2 : Int)
    (s11 s12 s21 s22 : List Nat)
    (hp1 : splitSsdeep h1 = .ok (b1, s11, s12))
    (hp2 : splitSsdeep h2 = .ok (b2, s21, s22))
    (hne : b1 ≠ b2) (hd1 : b1 ≠ b2 * 2) (hd2 : b2 ≠ b1 * 2) :
    Distance h1 h2 = .ok 0 := by
  rw [Distance_eq h1 h2 b1 b2 s11 s12 s21 s22 hp1 hp2,
    if_neg (fun hin => hne hin.1), if_pos ⟨hne, hd1, hd2⟩]

/-- C7 witness: block sizes 6 and 24 (ratio 4) give `(0, nil)`. -/
theorem claim_C7_witness :
    Distance (ascii "6:abcdefg:x") (ascii "24:y:z") = .ok 0 :=
  claim_C7_incompatible_zero (ascii "6:abcdefg:x") (ascii "24:y:z") 6 24
    (ascii "abcdefg") (ascii "x") (ascii "y") (ascii "z") rfl rfl
    (by norm_num) (by norm_num) (by norm_num)

set_option maxHeartbeats 2000000 in
/-- C2 (counterexample): with signatures `48:abcdefgh:u` and
`24:v:abcdefgg`, `Distance` returns 94 — the value of `scoreDistance`
at block size 48 (the LARGER block size) — while the claim's formula
`filteredScore(part1, part2, sig2.blockSize)` with the smaller block
size 24 gives 64 (the small-block cap fires below the threshold 45). -/
theorem claim_C2_counterexample :
    Distance (ascii "48:abcdefgh:u") (ascii "24:v:abcdefgg") = .ok 94 ∧
    scoreDistance (ascii "abcdefgh") (ascii "abcdefgg") 24 = 64 ∧
    (94 : Int) ≠ 64 := by
  have ha : ascii "abcdefgh" = [97, 98, 99, 100, 101, 102, 103, 104] := rfl
  have hb : ascii "abcdefgg" = [97, 98, 99, 100, 101, 102, 103, 103] := rfl
  have hd : distance (ascii "abcdefgh") (ascii "abcdefgg") = 1 := by
    rw [ha, hb]
    norm_num [distance]
  have hsd48 : scoreDistance (ascii "abcdefgh") (ascii "abcdefgg") 48 = 94 := by
    rw [scoreDistance_eq_of_common (by decide) (by decide), hd]
    decide
  have hsd24 : scoreDistance (ascii "abcdefgh") (ascii "abcdefgg") 24 = 64 := by
    rw [scoreDistance_eq_of_common_cap (by decide) (by decide), hd]
    decide
  refine ⟨?_, hsd24, by decide⟩
  rw [Distance_eq (ascii "48:abcdefgh:u") (ascii "24:v:abcdefgg") 48 24
    (ascii "abcdefgh") (ascii "u") (ascii "v") (ascii "abcdefgg") rfl rfl,
    if_neg (by decide), if_neg (by decide), if_neg (by decide),
    if_pos (by decide), hsd48]

/-- C2 (amended): in the double-block-size branches the score is
`scoreDistance` of the stated part pair, but at the LARGER block size:
`scoreDistance(sig1.part1, sig2.part2, sig1.blockSize)` when sig1's
block size is double sig2's, and
`scoreDistance(sig1.part2, sig2.part1, sig2.blockSize)` when sig2's is
double sig1's (zero block sizes take the equal branch and are
excluded). -/
theorem claim_C2_double_branch_block_size (h1 h2 : List Nat) (b1 b2 : Int)
    (s11 s12 s21 s22 : List Nat)
    (hp1 : splitSsdeep h1 = .ok (b1, s11, s12))
    (hp2 : splitSsdeep h2 = .ok (b2, s21, s22)) :
    (b1 = b2 * 2 → b2 ≠ 0 → Distance h1 h2 = .ok (scoreDistance s11 s22 b1)) ∧
    (b2 = b1 * 2 → b1 ≠ 0 → Distance h1 h2 = .ok (scoreDistance s12 s21 b2)) := by
  rw [Distance_eq h1 h2 b1 b2 s11 s12 s21 s22 hp1 hp2]
  constructor
  · intro hdb hb2
    have hne : b1 ≠ b2 := by omega
    rw [if_neg (fun hin => hne hin.1),
      if_neg (fun hin => hin.2.1 hdb),
      if_neg hne, if_pos hdb]
  · intro hdb hb1
    have hne : b1 ≠ b2 := by omega
    have hnd : b1 ≠ b2 * 2 := by omega
    rw [if_neg (fun hin => hne hin.1),
      if_neg (fun hin => hin.2.2 hdb),
      if_neg hne, if_neg hnd]

/-- C2 witness: the first double-block branch at concrete inputs. -/
theorem claim_C2_witness :
    Distance (ascii "48:abcdefgh:u") (ascii "24:v:abcdefgg") =
      .ok (scoreDistance (ascii "abcdefgh") (ascii "abcdefgg") 48) :=
  (claim_C2_double_branch_block_size (ascii "48:abcdefgh:u")
    (ascii "24:v:abcdefgg") 48 24 (ascii "abcdefgh") (ascii "u")
    (ascii "v") (ascii "abcdefgg") rfl rfl).1 (by norm_num) (by norm_num)

set_option maxHeartbeats 2000000 in
/-- C3 (counterexample): the parser accepts negative block sizes, and
the small-block cap `int(float64(blockSize)/3 * min(len1, len2))` is
then negative, so `Distance` can return a negative score with no
error: `Distance("-6:abcdefgh:x", "-3:y:abcdefgg") = (-16, nil)`. -/
theorem claim_C3_counterexample :
    Distance (ascii "-6:abcdefgh:x") (ascii "-3:y:abcdefgg") = .ok (-16) ∧
    (-16 : Int) < 0 := by
  have ha : ascii "abcdefgh" = [97, 98, 99, 100, 101, 102, 103, 104] := rfl
  have hb : ascii "abcdefgg" = [97, 98, 99, 100, 101, 102, 103, 103] := rfl
  have hd : distance (ascii "abcdefgh") (ascii "abcdefgg") = 1 := by
    rw [ha, hb]
    norm_num [distance]
  have hsd : scoreDistance (ascii "abcdefgh") (ascii "abcdefgg") (-6) = -16 := by
    rw [scoreDistance_eq_of_common_cap (by decide) (by decide), hd]
    decide
  refine ⟨?_, by norm_num⟩
  rw [Distance_eq (ascii "-6:abcdefgh:x") (ascii "-3:y:abcdefgg") (-6) (-3)
    (ascii "abcdefgh") (ascii "x") (ascii "y") (ascii "abcdefgg") rfl rfl,
    if_neg (by decide), if_neg (by decide), if_neg (by decide),
    if_pos (by decide), hsd]

/-- C3 (amended): whenever both inputs parse with NON-NEGATIVE block
sizes, the score returned by `Distance` lies in `[0, 100]` (this
includes every application of the small-block cap, which is then
non-negative). -/
theorem claim_C3_score_in_range (h1 h2 : List Nat) (b1 b2 : Int)
    (s11 s12 s21 s22 : List Nat)
    (hp1 : splitSsdeep h1 = .ok (b1, s11, s12))
    (hp2 : splitSsdeep h2 = .ok (b2, s21, s22))
    (hb1 : 0 ≤ b1) (hb2 : 0 ≤ b2) :
    ∃ sc, Distance h1 h2 = .ok sc ∧ 0 ≤ sc ∧ sc ≤ 100 := by
  rw [Distance_eq h1 h2 b1 b2 s11 s12 s21 s22 hp1 hp2]
  split
  · exact ⟨100, rfl, by norm_num⟩
  · split
    · exact ⟨0, rfl, by norm_num⟩
    · split
      · refine ⟨_, rfl, ?_, ?_⟩
        · exact le_trans (scoreDistance_nonneg s11 s21 b1 hb1) (le_max_left _ _)
        · exact max_le (scoreDistance_le_100 _ _ _) (scoreDistance_le_100 _ _ _)
      · split
        · exact ⟨_, rfl, scoreDistance_nonneg _ _ _ hb1, scoreDistance_le_100 _ _ _⟩
        · exact ⟨_, rfl, scoreDistance_nonneg _ _ _ hb2, scoreDistance_le_100 _ _ _⟩

/-- C3 witness: the amended claim at a concrete pair of signatures. -/
theorem claim_C3_witness :
    ∃ sc, Distance (ascii "3:abcdefg:x") (ascii "3:abcdefgh:x") = .ok sc ∧
      0 ≤ sc ∧ sc ≤ 100 :=
  claim_C3_score_in_range (ascii "3:abcdefg:x") (ascii "3:abcdefgh:x") 3 3
    (ascii "abcdefg") (ascii "x") (ascii "abcdefgh") (ascii "x") rfl rfl
    (by norm_num) (by norm_num)

/-- C5: `Distance` is commutative on valid signatures, in score and in
error (both errors are nil), across every orchestrator branch
including the two double-block-size cases. -/
theorem claim_C5_commutative (a b : List Nat) (ta tb : Int × List Nat × List Nat)
    (hpa : splitSsdeep a = .ok ta) (hpb : splitSsdeep b = .ok tb) :
    Distance a b = Distance b a := by
  obtain ⟨b1, s11, s12⟩ := ta
  obtain ⟨b2, s21, s22⟩ := tb
  rw [Distance_eq a b b1 b2 s11 s12 s21 s22 hpa hpb,
    Distance_eq b a b2 b1 s21 s22 s11 s12 hpb hpa]
  by_cases hfast : b1 = b2 ∧ s11.length = s21.length ∧ s12.length = s22.length
      ∧ s11 = s21 ∧ s12 = s22
  · obtain ⟨e1, e2, e3, e4, e5⟩ := hfast
    rw [if_pos ⟨e1, e2, e3, e4, e5⟩, if_pos ⟨e1.symm, e2.symm, e3.symm, e4.symm, e5.symm⟩]
  · have hfast2 : ¬(b2 = b1 ∧ s21.length = s11.length ∧ s22.length = s12.length
        ∧ s21 = s11 ∧ s22 = s12) :=
      fun hsw => hfast ⟨hsw.1.symm, hsw.2.1.symm, hsw.2.2.1.symm,
        hsw.2.2.2.1.symm, hsw.2.2.2.2.symm⟩
    rw [if_neg hfast, if_neg hfast2]
    by_cases hinc : b1 ≠ b2 ∧ b1 ≠ b2 * 2 ∧ b2 ≠ b1 * 2
    · have hinc2 : b2 ≠ b1 ∧ b2 ≠ b1 * 2 ∧ b1 ≠ b2 * 2 :=
        ⟨fun h => hinc.1 h.symm, hinc.2.2, hinc.2.1⟩
      rw [if_pos hinc, if_pos hinc2]
    · have hinc2 : ¬(b2 ≠ b1 ∧ b2 ≠ b1 * 2 ∧ b1 ≠ b2 * 2) :=
        fun hsw => hinc ⟨fun h => hsw.1 h.symm, hsw.2.2, hsw.2.1⟩
      rw [if_neg hinc, if_neg hinc2]
      by_cases heq : b1 = b2
      · rw [if_pos heq, if_pos heq.symm,
          scoreDistance_symm s11 s21, scoreDistance_symm s12 s22, heq]
      · have heq2 : ¬ b2 = b1 := fun h => heq h.symm
        rw [if_neg heq, if_neg heq2]
        by_cases hdb : b1 = b2 * 2
        · have hdb2 : ¬ b2 = b1 * 2 := by
            intro hcon
            apply heq
            omega
          rw [if_pos hdb, if_neg hdb2, scoreDistance_symm s11 s22]
        · push_neg at hinc
          have hdb3 : b2 = b1 * 2 := hinc heq hdb
          rw [if_neg hdb, if_pos hdb3, scoreDistance_symm s12 s21]

/-- C5 witness: commutativity at a concrete pair of valid signatures. -/
theorem claim_C5_witness :
    Distance (ascii "3:abc:defg") (ascii "6:xy:z") =
      Distance (ascii "6:xy:z") (ascii "3:abc:defg") :=
  claim_C5_commutative (ascii "3:abc:defg") (ascii "6:xy:z")
    (3, ascii "abc", ascii "defg") (6, ascii "xy", ascii "z") rfl rfl

set_option maxHeartbeats 2000000 in
/-- C8 (counterexample): at block size 4 with two length-8 parts one
edit apart, `scoreDistance` returns 10 (the cap is computed in
`float64`: `int(4/3.0 * 8.0) = 10`), while the claim's cap computed
with truncating integer division, `4 / 3 * 8 = 8`, gives 8. -/
theorem claim_C8_counterexample :
    scoreDistance (ascii "abcdefgh") (ascii "abcdefgg") 4 = 10 ∧
    claimNormalize (distance (ascii "abcdefgh") (ascii "abcdefgg"))
      (ascii "abcdefgh").length (ascii "abcdefgg").length 4 = 8 ∧
    (10 : Int) ≠ 8 := by
  have ha : ascii "abcdefgh" = [97, 98, 99, 100, 101, 102, 103, 104] := rfl
  have hb : ascii "abcdefgg" = [97, 98, 99, 100, 101, 102, 103, 103] := rfl
  have hd : distance (ascii "abcdefgh") (ascii "abcdefgg") = 1 := by
    rw [ha, hb]
    norm_num [distance]
  refine ⟨?_, ?_, by decide⟩
  · rw [scoreDistance_eq_of_common_cap (by decide) (by decide), hd]
    decide
  · rw [hd]
    decide

/-- C8 (amended): `scoreDistance` computes, in this exact order with
truncating integer division, `scaled = d*L/(len1+len2)`,
`pct = 100*scaled/L`, `score = 100 - pct`; only when `blockSize` is
below the small-block threshold does it cap the result — but the cap
`matchCap = int(float64(blockSize)/U * min(len1, len2))` is computed
in `float64` arithmetic and truncated toward zero, NOT by integer
division. -/
theorem claim_C8_exact_arithmetic (h1 h2 : List Nat) (bs : Int) :
    scoreDistance h1 h2 bs = specFilteredScore h1 h2 bs := by
  simp only [specFilteredScore, specNormalize]
  by_cases hc : hasCommonSubstring h1 h2 = true
  · rw [if_pos hc]
    by_cases hbs : blockSizeSmallLimit ≤ bs
    · rw [scoreDistance_eq_of_common hc hbs, if_neg (not_lt.mpr hbs)]
    · rw [scoreDistance_eq_of_common_cap hc (lt_of_not_le hbs),
        if_pos (lt_of_not_le hbs)]
  · have hfalse : hasCommonSubstring h1 h2 = false := by
      cases hcc : hasCommonSubstring h1 h2
      · rfl
      · exact absurd hcc hc
    rw [if_neg hc]
    simp [scoreDistance, hfalse]

/-- C10: when the fast path is not taken and every part string
compared by the selected branch is shorter than the rolling window,
the filter rejects every pair and `Distance` returns `(0, nil)`. -/
theorem claim_C10_short_parts_zero (h1 h2 : List Nat) (b1 b2 : Int)
    (s11 s12 s21 s22 : List Nat)
    (hp1 : splitSsdeep h1 = .ok (b1, s11, s12))
    (hp2 : splitSsdeep h2 = .ok (b2, s21, s22))
    (hnf : ¬ (b1 = b2 ∧ s11 = s21 ∧ s12 = s22))
    (hsmall : branchPartsSmall b1 b2 s11 s12 s21 s22) :
    Distance h1 h2 = .ok 0 := by
  rw [Distance_eq h1 h2 b1 b2 s11 s12 s21 s22 hp1 hp2,
    if_neg (fun hin => hnf ⟨hin.1, hin.2.2.2.1, hin.2.2.2.2⟩)]
  unfold branchPartsSmall at hsmall
  by_cases heq : b1 = b2
  · rw [if_pos heq] at hsmall
    have hinc : ¬ (b1 ≠ b2 ∧ b1 ≠ b2 * 2 ∧ b2 ≠ b1 * 2) := fun hin => hin.1 heq
    rw [if_neg hinc, if_pos heq]
    have z1 : scoreDistance s11 s21 b1 = 0 := by
      simp [scoreDistance, hasCommonSubstring_short_left hsmall.1]
    have z2 : scoreDistance s12 s22 (b1 * 2) = 0 := by
      simp [scoreDistance, hasCommonSubstring_short_left hsmall.2.2.1]
    rw [z1, z2]
    norm_num
  · rw [if_neg heq] at hsmall
    by_cases hd1 : b1 = b2 * 2
    · rw [if_pos hd1] at hsmall
      have hinc : ¬ (b1 ≠ b2 ∧ b1 ≠ b2 * 2 ∧ b2 ≠ b1 * 2) := fun hin => hin.2.1 hd1
      rw [if_neg hinc, if_neg heq, if_pos hd1]
      have z1 : scoreDistance s11 s22 b1 = 0 := by
        simp [scoreDistance, hasCommonSubstring_short_left hsmall.1]
      rw [z1]
    · rw [if_neg hd1] at hsmall
      by_cases hd2 : b2 = b1 * 2
      · rw [if_pos hd2] at hsmall
        have hinc : ¬ (b1 ≠ b2 ∧ b1 ≠ b2 * 2 ∧ b2 ≠ b1 * 2) := fun hin => hin.2.2 hd2
        rw [if_neg hinc, if_neg heq, if_neg hd1]
        have z1 : scoreDistance s12 s21 b2 = 0 := by
          simp [scoreDistance, hasCommonSubstring_short_left hsmall.1]
        rw [z1]
      · rw [if_pos ⟨heq, hd1, hd2⟩]

/-- C10 witness: two short-part signatures with equal block sizes and
different parts give `(0, nil)`. -/
theorem claim_C10_witness :
    Distance (ascii "3:ab:u") (ascii "3:cd:u") = .ok 0 :=
  claim_C10_short_parts_zero (ascii "3:ab:u") (ascii "3:cd:u") 3 3
    (ascii "ab") (ascii "u") (ascii "cd") (ascii "u") rfl rfl
    (by decide)
    (by unfold branchPartsSmall
        rw [if_pos rfl]
        exact ⟨by decide, by decide, by decide, by decide⟩)

/-- C9 (counterexample): `3:ab:x` and `3:abc:x` differ by a single
inserted character in part1, yet `Distance` returns 0 — every compared
part is shorter than the rolling window, so the filter rejects all
pairs.  This refutes the claim that the score is strictly positive. -/
theorem claim_C9_counterexample :
    splitSsdeep (ascii "3:ab:x") = .ok (3, ascii "ab", ascii "x") ∧
    splitSsdeep (ascii "3:abc:x") = .ok (3, ascii "abc", ascii "x") ∧
    ascii "abc" = (ascii "ab").take 2 ++ 99 :: (ascii "ab").drop 2 ∧
    Distance (ascii "3:ab:x") (ascii "3:abc:x") = .ok 0 :=
  ⟨rfl, rfl, by decide, rfl⟩

/-- C9 (amended): for signatures whose parsed forms agree except for a
single character inserted into one segment — either part1 or part2 — and
whose (positive) block size is the same, the score is strictly between 0
and 100 PROVIDED the filter finds a shared window in the two versions of
the modified segment, the unmodified version of that segment reaches the
window length, the two versions' lengths sum to at most the maximum
segment length, and the other segment is shorter than the window.
(Without the window provisos the score can be 0 — see the counterexample
— or 100.) -/
theorem claim_C9_single_insertion (a b : List Nat) (bs : Int)
    (s11 s12 s21 s22 : List Nat) (i c : Nat)
    (hpa : splitSsdeep a = .ok (bs, s11, s12))
    (hpb : splitSsdeep b = .ok (bs, s21, s22))
    (hbs : 1 ≤ bs) :
    (s21 = s11.take i ++ c :: s11.drop i → s12 = s22 →
      rollingWindow ≤ s11.length → s11.length + s21.length ≤ spamSumLength →
      s12.length < rollingWindow → hasCommonSubstring s11 s21 = true →
      ∃ n, Distance a b = .ok n ∧ 0 < n ∧ n < 100) ∧
    (s22 = s12.take i ++ c :: s12.drop i → s11 = s21 →
      rollingWindow ≤ s12.length → s12.length + s22.length ≤ spamSumLength →
      s11.length < rollingWindow → hasCommonSubstring s12 s22 = true →
      ∃ n, Distance a b = .ok n ∧ 0 < n ∧ n < 100) := by
  constructor
  · intro hq hx2 hlen hsum hshort hcs
    subst hx2
    have hqlen : s21.length = s11.length + 1 := by
      rw [hq]
      simp only [List.length_append, List.length_cons, List.length_take,
        List.length_drop]
      omega
    rw [Distance_eq a b bs bs s11 s12 s21 s12 hpa hpb]
    have hfast : ¬ (bs = bs ∧ s11.length = s21.length ∧ s12.length = s12.length
        ∧ s11 = s21 ∧ s12 = s12) := by
      rintro ⟨-, hl, -⟩
      omega
    have hinc : ¬ (bs ≠ bs ∧ bs ≠ bs * 2 ∧ bs ≠ bs * 2) := fun hin => hin.1 rfl
    rw [if_neg hfast, if_neg hinc, if_pos rfl]
    have hsd2 : scoreDistance s12 s12 (bs * 2) = 0 := by
      simp [scoreDistance, hasCommonSubstring_short_left hshort]
    have hbounds := scoreDistance_insert_bounds s11 i c s21 bs hq
      (by simp only [rollingWindow] at hlen; exact hlen)
      (by simp only [spamSumLength] at hsum; exact hsum)
      hbs hcs
    refine ⟨_, rfl, ?_, ?_⟩
    · rw [hsd2]
      omega
    · rw [hsd2]
      omega
  · intro hq hx1 hlen hsum hshort hcs
    subst hx1
    have hqlen : s22.length = s12.length + 1 := by
      rw [hq]
      simp only [List.length_append, List.length_cons, List.length_take,
        List.length_drop]
      omega
    rw [Distance_eq a b bs bs s11 s12 s11 s22 hpa hpb]
    have hfast : ¬ (bs = bs ∧ s11.length = s11.length ∧ s12.length = s22.length
        ∧ s11 = s11 ∧ s12 = s22) := by
      rintro ⟨-, -, hl, -⟩
      omega
    have hinc : ¬ (bs ≠ bs ∧ bs ≠ bs * 2 ∧ bs ≠ bs * 2) := fun hin => hin.1 rfl
    rw [if_neg hfast, if_neg hinc, if_pos rfl]
    have hsd1 : scoreDistance s11 s11 bs = 0 := by
      simp [scoreDistance, hasCommonSubstring_short_left hshort]
    have hbounds := scoreDistance_insert_bounds s12 i c s22 (bs * 2) hq
      (by simp only [rollingWindow] at hlen; exact hlen)
      (by simp only [spamSumLength] at hsum; exact hsum)
      (by omega) hcs
    refine ⟨_, rfl, ?_, ?_⟩
    · rw [hsd1]
      omega
    · rw [hsd1]
      omega

/-- C9 witness: the amended claim at block size 3 (below the small-block
threshold) for both cases — insertion into part1 (`3:abcdefg:x` against
`3:abcdefgh:x`) and insertion into part2 (`3:x:abcdefg` against
`3:x:abcdefgh`), inserting `h` = byte 104 at position 7. -/
theorem claim_C9_witness :
    (∃ n, Distance (ascii "3:abcdefg:x") (ascii "3:abcdefgh:x") = .ok n ∧
      0 < n ∧ n < 100) ∧
    (∃ n, Distance (ascii "3:x:abcdefg") (ascii "3:x:abcdefgh") = .ok n ∧
      0 < n ∧ n < 100) :=
  ⟨(claim_C9_single_insertion (ascii "3:abcdefg:x") (ascii "3:abcdefgh:x") 3
      (ascii "abcdefg") (ascii "x") (ascii "abcdefgh") (ascii "x") 7 104
      rfl rfl (by decide)).1
      (by decide) rfl (by decide) (by decide) (by decide) (by decide),
   (claim_C9_single_insertion (ascii "3:x:abcdefg") (ascii "3:x:abcdefgh") 3
      (ascii "x") (ascii "abcdefg") (ascii "x") (ascii "abcdefgh") 7 104
      rfl rfl (by decide)).2
      (by decide) rfl (by decide) (by decide) (by decide) (by decide)⟩
